import Mathlib

/-!
Verification development for the storage-and-concurrency core of an
educational relational database engine (buffer pool with LRU-K
replacement, B+ tree index, table/row lock manager with deadlock
detection, transaction manager).

Every definition below is a shallow embedding of the corresponding C++
function of the repository, translated statement by statement; the few
definitions that render a sentence of the specification instead (for
comparison with the code, or because the implementation file is not in
the source tree) carry a doc comment saying so.  Machine integers are
modelled as Int or Nat (no overflow is reachable in the modelled
scenarios), container iteration follows the order of the modelled list,
and loops whose termination is not structural take an explicit fuel
parameter, with none denoting exhaustion.
-/

namespace BusTub

/-- INVALID_TXN_ID from the project configuration. -/
def INVALID_TXN_ID : Int := -1

/-- INVALID_PAGE_ID from the project configuration. -/
def INVALID_PAGE_ID : Int := -1

/-- Point update of an association list (the effect of mutating
map.at(key) in place). -/
def mapAtKey {κ α : Type} [DecidableEq κ] (l : List (κ × α)) (fid : κ) (g : α → α) :
    List (κ × α) :=
  l.map fun e => if e.1 = fid then (e.1, g e.2) else e

/-! ## LRU-K replacer (src/buffer/lru_k_replacer.cpp, src/include/buffer/lru_k_replacer.h) -/

/-- LRUKNode from lru_k_replacer.h: access-timestamp history (least recent
in front), the access counter k_, and the evictable flag. -/
structure LRUKNode where
  history : List Nat
  k : Nat
  is_evictable : Bool
deriving DecidableEq

/-- LRUKNode::Access from lru_k_replacer.h: push_back the current stamp
and increment the counter k_.  No entry is ever dropped. -/
def LRUKNode.Access (n : LRUKNode) (currStamp : Nat) : LRUKNode :=
  { n with history := n.history ++ [currStamp], k := n.k + 1 }

/-- LRUKNode::VerseEvictable from lru_k_replacer.h. -/
def LRUKNode.VerseEvictable (n : LRUKNode) : LRUKNode :=
  { n with is_evictable := ! n.is_evictable }

/-- LRUKReplacer state (lru_k_replacer.h): node_store_ as an association
list with unique frame ids, current_timestamp_, curr_size_ (evictable
count), replacer_size_ and the constant k_. -/
structure LRUKReplacer where
  node_store : List (Int × LRUKNode)
  current_timestamp : Nat
  curr_size : Nat
  replacer_size : Nat
  k : Nat
deriving DecidableEq

/-- LRUKReplacer constructor. -/
def LRUKReplacer.init (num_frames k : Nat) : LRUKReplacer :=
  { node_store := [], current_timestamp := 0, curr_size := 0,
    replacer_size := num_frames, k := k }

/-- The scan accumulator of LRUKReplacer::Evict (local variables inf,
evict_true, max_time_stamp, frame_to_evict). -/
structure EvictScan where
  inf : Bool
  evict_true : Bool
  max_time_stamp : Nat
  frame_to_evict : Int
deriving DecidableEq

/-- One iteration of the node_store_ loop of LRUKReplacer::Evict
(lru_k_replacer.cpp lines 28-45).  diff_stamp is current_timestamp_
minus History().front(); the front of a node's history is its oldest
recorded access (the history is never trimmed). -/
def evictScanStep (cur K : Nat) (acc : EvictScan) (e : Int × LRUKNode) : EvictScan :=
  if e.2.is_evictable then
    let acc := { acc with evict_true := true }
    let diff := cur - e.2.history.headD 0
    if e.2.k < K then
      if ! (acc.inf && decide (acc.max_time_stamp > diff)) then
        { acc with inf := true, max_time_stamp := diff, frame_to_evict := e.1 }
      else acc
    else
      if ! acc.inf then
        if acc.max_time_stamp < diff then
          { acc with max_time_stamp := diff, frame_to_evict := e.1 }
        else acc
      else acc
  else acc

/-- LRUKReplacer::Evict (lru_k_replacer.cpp lines 22-55): scan the store,
return none when nothing is evictable, otherwise erase the chosen frame
and decrement curr_size_. -/
def LRUKReplacer.Evict (r : LRUKReplacer) : Option (Int × LRUKReplacer) :=
  let acc := r.node_store.foldl (evictScanStep r.current_timestamp r.k)
    { inf := false, evict_true := false, max_time_stamp := 0, frame_to_evict := 0 }
  if acc.evict_true then
    some (acc.frame_to_evict,
      { r with
        node_store := r.node_store.filter (fun e => e.1 ≠ acc.frame_to_evict),
        curr_size := r.curr_size - 1 })
  else none

/-- LRUKReplacer::RecordAccess (lru_k_replacer.cpp lines 57-72): abort
(none) on an out-of-range frame id, create the node on first access,
then LRUKNode::Access with the current timestamp and increment the
timestamp. -/
def LRUKReplacer.RecordAccess (r : LRUKReplacer) (fid : Int) : Option LRUKReplacer :=
  if fid < 0 ∨ r.replacer_size ≤ fid.toNat then none
  else
    let store :=
      match r.node_store.lookup fid with
      | none => r.node_store ++ [(fid, ({ history := [], k := 0, is_evictable := false } : LRUKNode))]
      | some _ => r.node_store
    let store := mapAtKey store fid (fun n => n.Access r.current_timestamp)
    some { r with node_store := store, current_timestamp := r.current_timestamp + 1 }

/-- LRUKReplacer::SetEvictable (lru_k_replacer.cpp lines 74-93): abort
(none) on an out-of-range or unknown frame; toggle the flag and adjust
curr_size_ only when the flag actually changes. -/
def LRUKReplacer.SetEvictable (r : LRUKReplacer) (fid : Int) (set_evictable : Bool) :
    Option LRUKReplacer :=
  if fid < 0 ∨ r.replacer_size ≤ fid.toNat then none
  else
    match r.node_store.lookup fid with
    | none => none
    | some node =>
      let toggled := mapAtKey r.node_store fid LRUKNode.VerseEvictable
      if set_evictable ∧ ¬ node.is_evictable then
        some { r with node_store := toggled, curr_size := r.curr_size + 1 }
      else if ¬ set_evictable ∧ node.is_evictable then
        some { r with node_store := toggled, curr_size := r.curr_size - 1 }
      else some r

/-- LRUKReplacer::Remove (lru_k_replacer.cpp lines 95-112). -/
def LRUKReplacer.Remove (r : LRUKReplacer) (fid : Int) : Option LRUKReplacer :=
  if fid < 0 ∨ r.replacer_size ≤ fid.toNat then none
  else
    match r.node_store.lookup fid with
    | none => some r
    | some node =>
      if ! node.is_evictable then none
      else
        some { r with
          node_store := r.node_store.filter (fun e => e.1 ≠ fid),
          curr_size := r.curr_size - 1 }

/-- Modelled from the spec (glossary and section 4.1): the timestamp of
the K-th most recent recorded access of a node, none when fewer than K
accesses are recorded (backward K-distance +inf). -/
def specKthMostRecentStamp (n : LRUKNode) (K : Nat) : Option Nat :=
  if n.history.length < K then none else n.history.reverse.get? (K - 1)

/-- The replacer state of the C1 scenario, built by the modelled
operations themselves: K = 2; frame 1 accessed at timestamps 0, 3, 4;
frame 2 accessed at timestamps 1, 2; both frames evictable. -/
def lruScenarioC1 : Option LRUKReplacer :=
  (LRUKReplacer.init 4 2).RecordAccess 1 >>= fun r =>
  r.RecordAccess 2 >>= fun r =>
  r.RecordAccess 2 >>= fun r =>
  r.RecordAccess 1 >>= fun r =>
  r.RecordAccess 1 >>= fun r =>
  r.SetEvictable 1 true >>= fun r =>
  r.SetEvictable 2 true

/-- The replacer state of the C6 scenario: K = 1 and two accesses to
frame 0. -/
def lruScenarioC6 : Option LRUKReplacer :=
  (LRUKReplacer.init 4 1).RecordAccess 0 >>= fun r => r.RecordAccess 0

/-! ## Buffer pool manager (src/buffer/buffer_pool_manager.cpp) -/

/-- The metadata of a Page object relevant to the buffer pool. -/
structure BPMPage where
  page_id : Int
  pin_count : Int
  is_dirty : Bool

/-- BufferPoolManager state: the fixed page array (indexed by frame),
the page table, the owned replacer, the free list and the allocation
counter. -/
structure BufferPoolManager where
  pool_size : Nat
  pages : Nat → BPMPage
  page_table : List (Int × Nat)
  replacer : LRUKReplacer
  free_list : List Nat
  next_page_id : Int

/-- BufferPoolManager::UnpinPage (buffer_pool_manager.cpp lines
180-201): false when the page is absent or its pin count is already at
most 0; otherwise decrement the pin count, make the frame evictable
when the count drops to 0, and set the dirty bit when is_dirty is true
(never clearing it).  A failing SetEvictable (impossible for frames the
pool tracks) is the assertion abort, modelled as none. -/
def BufferPoolManager.UnpinPage (b : BufferPoolManager) (page_id : Int) (is_dirty : Bool) :
    Option (Bool × BufferPoolManager) :=
  match b.page_table.lookup page_id with
  | none => some (false, b)
  | some frame =>
    if (b.pages frame).pin_count ≤ 0 then some (false, b)
    else
      let pages1 := fun j =>
        if j = frame then
          { b.pages frame with pin_count := (b.pages frame).pin_count - 1 }
        else b.pages j
      let b1 := { b with pages := pages1 }
      let afterEvict : Option BufferPoolManager :=
        if (pages1 frame).pin_count ≤ 0 then
          match b1.replacer.SetEvictable (Int.ofNat frame) true with
          | none => none
          | some rep => some { b1 with replacer := rep }
        else some b1
      match afterEvict with
      | none => none
      | some b2 =>
        if is_dirty then
          some (true, { b2 with pages := fun j =>
            if j = frame then { b2.pages frame with is_dirty := true } else b2.pages j })
        else some (true, b2)

/-- A concrete pool for the C9 witness: one resident page 7 in frame 0
with pin count 1, not dirty, with a replacer node for frame 0. -/
def bpmScenario : BufferPoolManager :=
  { pool_size := 4,
    pages := fun j =>
      if j = 0 then { page_id := 7, pin_count := 1, is_dirty := false }
      else { page_id := INVALID_PAGE_ID, pin_count := 0, is_dirty := false },
    page_table := [(7, 0)],
    replacer := { node_store := [(0, { history := [0], k := 1, is_evictable := false })],
                  current_timestamp := 1, curr_size := 0, replacer_size := 4, k := 2 },
    free_list := [1, 2, 3],
    next_page_id := 8 }

/-! ## Transaction manager abort (src/concurrency/transaction_manager.cpp) -/

/-- Transaction states from the project. -/
inductive TransactionState where
  | GROWING
  | SHRINKING
  | COMMITTED
  | ABORTED
deriving DecidableEq

/-- Write record types from the project. -/
inductive WType where
  | INSERT
  | DELETE
  | UPDATE
deriving DecidableEq

/-- A row identifier (page id, slot). -/
abbrev Rid := Int × Int

/-- Tuple metadata as used by TransactionManager::Abort. -/
structure TupleMeta where
  insert_txn_id : Int
  delete_txn_id : Int
  is_deleted : Bool

/-- A table write record (rid, record type, table id). -/
structure TableWriteRecord where
  rid : Rid
  wtype : WType
  tid : Int

/-- An index write record; the key obtained by KeyFromTuple from
tuple_ (resp. old_tuple_) is modelled directly as the tuple's key
value. -/
structure IndexWriteRecord where
  rid : Rid
  table_oid : Int
  index_oid : Int
  wtype : WType
  tuple : Int
  old_tuple : Int

/-- The state TransactionManager::Abort operates on: the transaction's
two write sets and state, the table heap (per-rid meta and bytes), and
the catalog's indexes, each modelled as a list of (key, rid) entries. -/
structure AbortState where
  write_set : List TableWriteRecord
  index_write_set : List IndexWriteRecord
  meta : Rid → TupleMeta
  data : Rid → Int
  indexes : Int → List (Int × Rid)
  txn_state : TransactionState
  locks_released : Bool

/-- The switch body of the first (table) loop of
TransactionManager::Abort (transaction_manager.cpp lines 39-66); the
UPDATE branch scans the index write set for the matching record and is
the assertion abort (none) when none matches. -/
def abortTableRecord (st : AbortState) (record : TableWriteRecord) : Option AbortState :=
  match record.wtype with
  | WType.INSERT =>
    some { st with meta := fun r =>
      if r = record.rid then { st.meta record.rid with is_deleted := true } else st.meta r }
  | WType.DELETE =>
    some { st with meta := fun r =>
      if r = record.rid then { st.meta record.rid with is_deleted := false } else st.meta r }
  | WType.UPDATE =>
    match st.index_write_set.find? fun ir =>
        ir.table_oid == record.tid && ir.rid == record.rid with
    | none => none
    | some ir =>
      some { st with
        meta := fun r =>
          if r = record.rid then
            { insert_txn_id := INVALID_TXN_ID, delete_txn_id := INVALID_TXN_ID,
              is_deleted := false }
          else st.meta r,
        data := fun r => if r = record.rid then ir.old_tuple else st.data r }

/-- The first loop of TransactionManager::Abort (lines 37-68): process
the back of the table write set, then pop it; repeat while non-empty. -/
def abortTableLoop (st : AbortState) : Option AbortState :=
  match hws : st.write_set.getLast? with
  | none => some st
  | some record =>
    match abortTableRecord st record with
    | none => none
    | some st1 => abortTableLoop { st1 with write_set := st.write_set.dropLast }
termination_by st.write_set.length
decreasing_by
  have hne : st.write_set ≠ [] := by
    intro h
    rw [h] at hws
    simp at hws
  cases h2 : st.write_set with
  | nil => exact absurd h2 hne
  | cons a l => simp [List.length_dropLast]

/-- The switch body of the second (index) loop of
TransactionManager::Abort (lines 74-90): INSERT deletes the index
entry, DELETE re-inserts it, UPDATE deletes the new key and inserts
the old key.  The index write set itself is left untouched (the loop
has no pop). -/
def abortIndexRecord (st : AbortState) (record : IndexWriteRecord) : AbortState :=
  let delEntry := fun (oid : Int) (key : Int) (rid : Rid) =>
    fun (i : Int) =>
      if i = oid then (st.indexes oid).eraseP (fun e => e.1 == key && e.2 == rid)
      else st.indexes i
  match record.wtype with
  | WType.INSERT =>
    { st with indexes := delEntry record.index_oid record.tuple record.rid }
  | WType.DELETE =>
    { st with indexes := fun i =>
      if i = record.index_oid then st.indexes i ++ [(record.tuple, record.rid)]
      else st.indexes i }
  | WType.UPDATE =>
    { st with indexes := fun i =>
      if i = record.index_oid then
        ((st.indexes i).eraseP (fun e => e.1 == record.tuple && e.2 == record.rid))
          ++ [(record.old_tuple, record.rid)]
      else st.indexes i }

/-- The second loop of TransactionManager::Abort (lines 69-91): while
the index write set is non-empty, process its back element.  The source
never pops the element, so the loop state keeps the full index write
set; fuel exhaustion is none. -/
def abortIndexLoop : Nat → AbortState → Option AbortState
  | 0, _ => none
  | fuel + 1, st =>
    match st.index_write_set.getLast? with
    | none => some st
    | some record => abortIndexLoop fuel (abortIndexRecord st record)

/-- TransactionManager::Abort (lines 35-97): the table loop, then the
index loop, then ReleaseLocks and SetState(ABORTED). -/
def TransactionManagerAbort (fuel : Nat) (st : AbortState) : Option AbortState :=
  match abortTableLoop st with
  | none => none
  | some st1 =>
    match abortIndexLoop fuel st1 with
    | none => none
    | some st2 => some { st2 with locks_released := true, txn_state := TransactionState.ABORTED }

/-- A concrete transaction for the C2 witness: empty table write set,
one INSERT record in the index write set. -/
def abortScenario : AbortState :=
  { write_set := [],
    index_write_set :=
      [{ rid := (1, 0), table_oid := 0, index_oid := 0, wtype := WType.INSERT,
         tuple := 42, old_tuple := 42 }],
    meta := fun _ => { insert_txn_id := 0, delete_txn_id := INVALID_TXN_ID, is_deleted := false },
    data := fun _ => 42,
    indexes := fun _ => [(42, (1, 0))],
    txn_state := TransactionState.GROWING,
    locks_released := false }

/-! ## Lock manager (src/concurrency/lock_manager.cpp) -/

/-- Lock modes from the project. -/
inductive LockMode where
  | INTENTION_SHARED
  | INTENTION_EXCLUSIVE
  | SHARED
  | SHARED_INTENTION_EXCLUSIVE
  | EXCLUSIVE
deriving DecidableEq

/-- Isolation levels from the project. -/
inductive IsolationLevel where
  | REPEATABLE_READ
  | READ_COMMITTED
  | READ_UNCOMMITTED
deriving DecidableEq

/-- Abort reasons raised by the lock manager. -/
inductive AbortReason where
  | LOCK_ON_SHRINKING
  | LOCK_SHARED_ON_READ_UNCOMMITTED
  | UPGRADE_CONFLICT
  | INCOMPATIBLE_UPGRADE
  | ATTEMPTED_UNLOCK_BUT_NO_LOCK_HELD
  | TABLE_UNLOCKED_BEFORE_UNLOCKING_ROWS
  | ATTEMPTED_INTENTION_LOCK_ON_ROW
  | TABLE_LOCK_NOT_PRESENT
deriving DecidableEq

/-- A lock request as stored in a request queue. -/
structure LockRequest where
  txn_id : Int
  lock_mode : LockMode
  granted : Bool
deriving DecidableEq

/-- A per-resource request queue with its single upgrading slot
(INVALID_TXN_ID when no upgrade is in progress). -/
structure LockRequestQueue where
  request_queue : List LockRequest
  upgrading : Int
deriving DecidableEq

/-- The upgrade-precondition test of LockManager::LockTable lines 75-80
(and the identical test of LockManager::LockRow lines 249-254),
written exactly as the source condition. -/
def upgradeAllowedSrc (old_lock_mode lock_mode : LockMode) : Bool :=
  (old_lock_mode == LockMode.INTENTION_SHARED) ||
  (old_lock_mode == LockMode.SHARED && !(lock_mode == LockMode.INTENTION_SHARED) &&
    !(lock_mode == LockMode.INTENTION_EXCLUSIVE)) ||
  (old_lock_mode == LockMode.INTENTION_EXCLUSIVE &&
    (lock_mode == LockMode.SHARED_INTENTION_EXCLUSIVE || lock_mode == LockMode.EXCLUSIVE)) ||
  (old_lock_mode == LockMode.SHARED_INTENTION_EXCLUSIVE && lock_mode == LockMode.EXCLUSIVE)

/-- Modelled from the spec: the permitted upgrade pairs
IS→{S,IX,SIX,X}; S→{SIX,X}; IX→{SIX,X}; SIX→X. -/
def specUpgradePermitted : LockMode → LockMode → Bool
  | LockMode.INTENTION_SHARED, LockMode.SHARED => true
  | LockMode.INTENTION_SHARED, LockMode.INTENTION_EXCLUSIVE => true
  | LockMode.INTENTION_SHARED, LockMode.SHARED_INTENTION_EXCLUSIVE => true
  | LockMode.INTENTION_SHARED, LockMode.EXCLUSIVE => true
  | LockMode.SHARED, LockMode.SHARED_INTENTION_EXCLUSIVE => true
  | LockMode.SHARED, LockMode.EXCLUSIVE => true
  | LockMode.INTENTION_EXCLUSIVE, LockMode.SHARED_INTENTION_EXCLUSIVE => true
  | LockMode.INTENTION_EXCLUSIVE, LockMode.EXCLUSIVE => true
  | LockMode.SHARED_INTENTION_EXCLUSIVE, LockMode.EXCLUSIVE => true
  | _, _ => false

/-- Outcome of the pre-wait part of a lock request on a queue. -/
inductive LockStepOutcome where
  | alreadyHeld
  | threw (reason : AbortReason)
  | upgradeWait (q : LockRequestQueue)
  | firstWait (q : LockRequestQueue)
deriving DecidableEq

/-- The request/upgrade handling of LockManager::LockTable lines 64-110
(LockManager::LockRow lines 238-284 is the same text on the row queue):
scan the queue for this transaction's request; same mode returns true
at once; a pending upgrade by anyone raises UPGRADE_CONFLICT; a pair
outside the permitted table raises INCOMPATIBLE_UPGRADE; otherwise the
old request is erased, the upgrading slot is taken and a fresh
ungranted request is appended before waiting.  A first-time request is
appended at the tail before waiting.  The transaction's own bookkeeping
sets (DeleteTxnLockTable) are not part of the queue state. -/
def lockRequestStep (q : LockRequestQueue) (txn_id : Int) (lock_mode : LockMode) :
    LockStepOutcome :=
  match q.request_queue.find? (fun r => r.txn_id == txn_id) with
  | some lock_request =>
    if lock_request.lock_mode = lock_mode then LockStepOutcome.alreadyHeld
    else if q.upgrading ≠ INVALID_TXN_ID then
      LockStepOutcome.threw AbortReason.UPGRADE_CONFLICT
    else if ! upgradeAllowedSrc lock_request.lock_mode lock_mode then
      LockStepOutcome.threw AbortReason.INCOMPATIBLE_UPGRADE
    else
      LockStepOutcome.upgradeWait
        { request_queue :=
            q.request_queue.eraseP (fun r => r.txn_id == txn_id) ++
              [{ txn_id := txn_id, lock_mode := lock_mode, granted := false }],
          upgrading := txn_id }
  | none =>
    LockStepOutcome.firstWait
      { q with request_queue :=
          q.request_queue ++ [{ txn_id := txn_id, lock_mode := lock_mode, granted := false }] }

/-- A concrete queue for the C4 witness: transaction 1 holds S, no
upgrade in progress. -/
def lockQueueScenario : LockRequestQueue :=
  { request_queue := [{ txn_id := 1, lock_mode := LockMode.SHARED, granted := true }],
    upgrading := INVALID_TXN_ID }

/-- The transaction fields LockManager::UnlockRow reads and writes. -/
structure TxnRowLocks where
  txn_id : Int
  state : TransactionState
  isolation_level : IsolationLevel
  s_row_lock_set : List (Int × List Rid)
  x_row_lock_set : List (Int × List Rid)

/-- LockManager::DeleteTxnLockRow (lock_manager.cpp lines 369-377):
erase the rid from the transaction's shared or exclusive row-lock set
of the table. -/
def DeleteTxnLockRow (txn : TxnRowLocks) (lock_mode : LockMode) (oid : Int) (rid : Rid) :
    TxnRowLocks :=
  if lock_mode = LockMode.SHARED then
    { txn with s_row_lock_set := mapAtKey txn.s_row_lock_set oid (fun s => s.erase rid) }
  else if lock_mode = LockMode.EXCLUSIVE then
    { txn with x_row_lock_set := mapAtKey txn.x_row_lock_set oid (fun s => s.erase rid) }
  else txn

/-- Result of LockManager::UnlockRow: a raised abort reason (with the
transaction already set to ABORTED by ThrowAbort), or success with the
updated row lock map and transaction. -/
inductive UnlockRowResult where
  | threw (txn : TxnRowLocks) (reason : AbortReason)
  | ok (row_lock_map : List (Rid × LockRequestQueue)) (txn : TxnRowLocks)

/-- Whether an UnlockRow outcome is the successful return true. -/
def UnlockRowResult.isOk : UnlockRowResult → Bool
  | UnlockRowResult.ok _ _ => true
  | UnlockRowResult.threw _ _ => false

/-- LockManager::UnlockRow (lock_manager.cpp lines 299-342): find the
transaction's granted request on the rid's queue (aborting with
ATTEMPTED_UNLOCK_BUT_NO_LOCK_HELD when the map or the queue has none);
unless force is set, perform the 2PL isolation transition (S under
REPEATABLE_READ and X move the state to SHRINKING); then remove the
grant from the transaction's bookkeeping and from the queue and notify
the waiters. -/
def LockManagerUnlockRow (row_lock_map : List (Rid × LockRequestQueue)) (txn : TxnRowLocks)
    (oid : Int) (rid : Rid) (force : Bool) : UnlockRowResult :=
  match row_lock_map.lookup rid with
  | none =>
    UnlockRowResult.threw { txn with state := TransactionState.ABORTED }
      AbortReason.ATTEMPTED_UNLOCK_BUT_NO_LOCK_HELD
  | some q =>
    match q.request_queue.find? (fun r => r.txn_id == txn.txn_id && r.granted) with
    | none =>
      UnlockRowResult.threw { txn with state := TransactionState.ABORTED }
        AbortReason.ATTEMPTED_UNLOCK_BUT_NO_LOCK_HELD
    | some req =>
      let txn1 :=
        if ! force then
          if req.lock_mode = LockMode.SHARED then
            (if txn.isolation_level = IsolationLevel.REPEATABLE_READ then
              { txn with state := TransactionState.SHRINKING }
            else txn)
          else if req.lock_mode = LockMode.EXCLUSIVE then
            { txn with state := TransactionState.SHRINKING }
          else txn
        else txn
      let txn2 := DeleteTxnLockRow txn1 req.lock_mode oid rid
      let map2 := mapAtKey row_lock_map rid fun qq =>
        { qq with request_queue :=
            qq.request_queue.eraseP (fun r => r.txn_id == txn.txn_id && r.granted) }
      UnlockRowResult.ok map2 txn2

/-- A concrete row-lock state for the C10 witness: transaction 1 holds
X on rid (2, 5) of table 4 under REPEATABLE_READ, in GROWING state. -/
def rowLockScenarioTxn : TxnRowLocks :=
  { txn_id := 1, state := TransactionState.GROWING,
    isolation_level := IsolationLevel.REPEATABLE_READ,
    s_row_lock_set := [(4, [])],
    x_row_lock_set := [(4, [(2, 5)])] }

/-- The row lock map of the C10 witness. -/
def rowLockScenarioMap : List (Rid × LockRequestQueue) :=
  [((2, 5),
    { request_queue := [{ txn_id := 1, lock_mode := LockMode.EXCLUSIVE, granted := true }],
      upgrading := INVALID_TXN_ID })]

/-! ## Deadlock detection (src/concurrency/lock_manager.cpp lines 481-632) -/

/-- The waits_for_ graph: an association list from txn id to the vector
of txn ids it waits for (keys unique). -/
abbrev WaitsFor := List (Int × List Int)

/-- Read access waits_for_[key]; an absent key has no successors. -/
def getEdges (g : WaitsFor) (t : Int) : List Int := (g.lookup t).getD []

/-- Ascending insertion, the building block of the modelled std::sort. -/
def insSorted (x : Int) : List Int → List Int
  | [] => [x]
  | y :: ys => if x ≤ y then x :: y :: ys else y :: insSorted x ys

/-- The std::sort call at the head of RecursiveGo (ascending order). -/
def sortInts (l : List Int) : List Int := l.foldr insSorted []

/-- The key loop of LockManager::RecursiveGo (lock_manager.cpp lines
525-539) over the already-sorted keys: a key found on the visited path
closes a cycle and the reported victim is the maximum of that key and
every entry of the visited path (lines 527-530); otherwise the search
recurses into the key's wait list with the path extended (the C++
passes visited by value, so the pop_back after the call is the same as
keeping the caller's list).  recGoF is the one-level-deeper search. -/
def recGoKeys (g : WaitsFor) (recGoF : List Int → List Int → Option (Option Int))
    (visited : List Int) : List Int → Option (Option Int)
  | [] => some none
  | key :: rest =>
    if key ∈ visited then some (some (visited.foldl max key))
    else
      match recGoF (visited ++ [key]) (getEdges g key) with
      | none => none
      | some (some t) => some (some t)
      | some none => recGoKeys g recGoF visited rest

/-- LockManager::RecursiveGo (lines 522-541): sort the keys and walk
them; the fuel bounds the recursion depth (the C++ recursion is bounded
by the number of distinct nodes, since the path never repeats). -/
def recGo (g : WaitsFor) : Nat → List Int → List Int → Option (Option Int)
  | 0, _, _ => none
  | fuel + 1, visited, keys => recGoKeys g (recGo g fuel) visited (sortInts keys)

/-- LockManager::HasCycle (lines 505-520): run the search from every
key with a non-empty wait list, starting with an empty visited path. -/
def hasCycle (g : WaitsFor) (fuel : Nat) : Option (Option Int) :=
  recGo g fuel [] ((g.filter (fun p => ! p.2.isEmpty)).map Prod.fst)

/-- The per-victim cleanup of RunCycleDetection lines 624-627: erase
the victim's entry, then RemoveEdge(t1, victim) for every remaining
key (erasing the first occurrence, as std::find + erase does). -/
def eraseVictim (g : WaitsFor) (t : Int) : WaitsFor :=
  (g.filter (fun p => p.1 ≠ t)).map (fun p => (p.1, p.2.erase t))

/-- Whether a transaction occurs nowhere in the graph (neither as a key
nor in any wait list). -/
def nodeAbsent (g : WaitsFor) (t : Int) : Bool :=
  g.all (fun p => p.1 != t && ! p.2.contains t)

/-- The cycle-breaking loop of RunCycleDetection (lines 618-629): while
HasCycle reports a victim, abort it (modelled by the final effect of
TransactionManager::Abort on the transaction-state map), erase it from
the graph and repeat.  The round count is explicit; none is fuel
exhaustion of either the rounds or the inner search. -/
def detectRounds (fuelDfs : Nat) : Nat → WaitsFor → (Int → TransactionState) →
    Option (WaitsFor × (Int → TransactionState) × List Int)
  | 0, _, _ => none
  | n + 1, g, st =>
    match hasCycle g fuelDfs with
    | none => none
    | some none => some (g, st, [])
    | some (some t) =>
      match detectRounds fuelDfs n (eraseVictim g t)
          (fun x => if x = t then TransactionState.ABORTED else st x) with
      | none => none
      | some (g2, st2, victims) => some (g2, st2, t :: victims)

/-- Consecutive elements of the list follow edges of the graph. -/
def isWalk (g : WaitsFor) : List Int → Bool
  | [] => true
  | [_] => true
  | a :: b :: rest => (getEdges g a).contains b && isWalk g (b :: rest)

/-- Every transaction the graph names (keys and edge targets). -/
def nodesOf (g : WaitsFor) : List Int :=
  g.foldr (fun p acc => p.1 :: p.2 ++ acc) []

/-- The well-formedness RunCycleDetection establishes when it rebuilds
the graph: the map keys are unique (std::unordered_map) and AddEdge
never stores a duplicate target in a wait list. -/
def graphWF (g : WaitsFor) : Prop :=
  (g.map Prod.fst).Nodup ∧ ∀ p ∈ g, (p.2 : List Int).Nodup

/-- The C3 scenario graph: 1 waits for 9, 9 waits for 2, and 2 and 3
wait for each other; the only cycle is {2, 3}, but the DFS path that
reaches it is 1, 9, 2, 3. -/
def waitsForScenario : WaitsFor := [(1, [9]), (9, [2]), (2, [3]), (3, [2])]

/-- The shape of every victim RecursiveGo can report: the maximum of a
walk of the graph whose last entry steps back onto the walk (the
closing segment of that walk is the detected cycle, so the victim
bounds every transaction of the detected cycle from above, without
necessarily lying on the cycle itself). -/
def VictimFromLasso (g : WaitsFor) (t : Int) : Prop :=
  ∃ v k, isWalk g (v ++ [k]) = true ∧ k ∈ v ∧ t = v.foldl max k

/-- The invariant tying the DFS visited path to the candidate keys: the
keys are successors of the path's last entry (no constraint at the
top-level call, where the path is empty). -/
def extendsOk (g : WaitsFor) (visited keys : List Int) : Prop :=
  match visited.getLast? with
  | none => True
  | some lastv => ∀ x ∈ keys, x ∈ getEdges g lastv

/-! ## B+ tree (src/storage/index/b_plus_tree.cpp,
src/storage/page/b_plus_tree_page.cpp,
src/storage/page/b_plus_tree_internal_page.cpp) -/

/-- GenericComparator on integer keys: negative, zero or positive. -/
def cmp (a b : Int) : Int := if a < b then -1 else if a = b then 0 else 1

/-- A leaf page: size, max size, the slot array of keys and RIDs, and
the next-leaf pointer.  BPlusTreeLeafPage's implementation file is not
in the source tree; its slot accessors are Modelled from the spec:
ordered (key, RID) pairs with plain array reads and writes and a
next_leaf_page_id. -/
structure LeafNode where
  size : Nat
  max_size : Nat
  keys : Nat → Int
  vals : Nat → Rid
  next_page_id : Int

/-- An internal page (b_plus_tree_internal_page.cpp): size, max size
and the slot array of keys and child page ids; slot 0's key is the
sentinel. -/
structure InternalNode where
  size : Nat
  max_size : Nat
  keys : Nat → Int
  children : Nat → Int

/-- BPlusTreeInternalPage::KeyAt (lines 41-50): a valid non-zero index
reads its slot, anything else falls back to slot 0. -/
def InternalNode.KeyAt (n : InternalNode) (index : Int) : Int :=
  if 1 ≤ index ∧ index < (n.size : Int) then n.keys index.toNat else n.keys 0

/-- BPlusTreeInternalPage::SetKeyAt (lines 53-61): the out-of-range
branch performs the same write, so the store is unconditional. -/
def InternalNode.SetKeyAt (n : InternalNode) (index key : Int) : InternalNode :=
  { n with keys := fun j => if (j : Int) = index then key else n.keys j }

/-- BPlusTreeInternalPage::ValueAt (lines 77-86): a valid index reads
its slot, anything else falls back to slot 0. -/
def InternalNode.ValueAt (n : InternalNode) (index : Int) : Int :=
  if 0 ≤ index ∧ index < (n.size : Int) then n.children index.toNat else n.children 0

/-- BPlusTreeInternalPage::SetValueAt (lines 64-70): an out-of-range
index only prints and does not write. -/
def InternalNode.SetValueAt (n : InternalNode) (index value : Int) : InternalNode :=
  if 0 ≤ index ∧ index < (n.size : Int) then
    { n with children := fun j => if (j : Int) = index then value else n.children j }
  else n

/-- Leaf KeyAt (Modelled from the spec: a plain slot read). -/
def LeafNode.KeyAt (n : LeafNode) (index : Int) : Int := n.keys index.toNat

/-- Leaf ValueAt (Modelled from the spec: a plain slot read). -/
def LeafNode.ValueAt (n : LeafNode) (index : Int) : Rid := n.vals index.toNat

/-- Leaf SetAt (Modelled from the spec: a plain slot write of the key
and the RID). -/
def LeafNode.SetAt (n : LeafNode) (index key : Int) (value : Rid) : LeafNode :=
  { n with
    keys := fun j => if (j : Int) = index then key else n.keys j,
    vals := fun j => if (j : Int) = index then value else n.vals j }

/-- A B+ tree page is one of the two variants
(BPlusTreePage::IsLeafPage dispatches on the header tag). -/
inductive BPTNode where
  | leaf (n : LeafNode)
  | internal (n : InternalNode)

/-- BPlusTreePage::GetMinSize (b_plus_tree_page.cpp lines 48-54): the
floor of half the max size for leaves (at least 1), and the rounded-up
half for internal pages (at least 2). -/
def BPTNode.GetMinSize : BPTNode → Nat
  | BPTNode.leaf n => if n.max_size / 2 > 0 then n.max_size / 2 else 1
  | BPTNode.internal n => if (n.max_size + 1) / 2 > 1 then (n.max_size + 1) / 2 else 2

/-- The minimum size of a leaf page with the given max size. -/
def leafMinSize (max_size : Nat) : Nat := if max_size / 2 > 0 then max_size / 2 else 1

/-- The minimum size of an internal page with the given max size. -/
def internalMinSize (max_size : Nat) : Nat :=
  if (max_size + 1) / 2 > 1 then (max_size + 1) / 2 else 2

/-- The whole index: the header page content (root_page_id_), the page
store, the allocation counter of the buffer pool, and the two
configured maximum sizes. -/
structure BPlusTree where
  root_page_id : Int
  store : Int → Option BPTNode
  next_page_id : Int
  leaf_max_size : Nat
  internal_max_size : Nat

/-- The leaf branch of BPlusTree::GetSlotNum (b_plus_tree.cpp lines
137-152): binary search for an exact match, -1 when absent.  The fuel
only bounds the loop; the interval shrinks at every iteration, so the
chosen budget never runs out. -/
def getSlotLoopLeaf (key : Int) (leaf : LeafNode) : Nat → Int → Int → Int
  | 0, _, _ => -1
  | fuel + 1, start, stop =>
    if start ≤ stop then
      let slot := (start + stop) / 2
      let val := cmp key (leaf.KeyAt slot)
      if val = 0 then slot
      else if val > 0 then getSlotLoopLeaf key leaf fuel (slot + 1) stop
      else getSlotLoopLeaf key leaf fuel start (slot - 1)
    else -1

/-- GetSlotNum on a leaf page. -/
def GetSlotNumLeaf (key : Int) (leaf : LeafNode) : Int :=
  getSlotLoopLeaf key leaf (leaf.size + 2) 0 ((leaf.size : Int) - 1)

/-- The internal branch of BPlusTree::GetSlotNum (lines 153-177):
locate the child slot whose range holds the key; -1 only when the page
has at most one entry (the loop body never runs). -/
def getSlotLoopInternal (key : Int) (node : InternalNode) : Nat → Int → Int → Int
  | 0, _, _ => -1
  | fuel + 1, start, stop =>
    if start ≤ stop then
      let slot := (start + stop) / 2
      if cmp key (node.KeyAt slot) < 0 then
        if slot = start then start - 1
        else if cmp key (node.KeyAt (slot - 1)) ≥ 0 then slot - 1
        else getSlotLoopInternal key node fuel start (slot - 1)
      else
        if slot = stop then stop
        else if cmp key (node.KeyAt (slot + 1)) < 0 then slot
        else getSlotLoopInternal key node fuel (slot + 1) stop
    else -1

/-- GetSlotNum on an internal page. -/
def GetSlotNumInternal (key : Int) (node : InternalNode) : Int :=
  getSlotLoopInternal key node (node.size + 2) 1 ((node.size : Int) - 1)

/-- The descent of BPlusTree::GetValue (lines 104-118): follow
GetSlotNum children until a leaf page; some none is the early false
return on slot -1 (and the stuck read of a missing page, unreachable
on well-formed trees); none is fuel exhaustion. -/
def findLeafGet (t : BPlusTree) (key : Int) : Nat → Int → Option (Option Int)
  | 0, _ => none
  | fuel + 1, pid =>
    match t.store pid with
    | none => some none
    | some (BPTNode.leaf _) => some (some pid)
    | some (BPTNode.internal node) =>
      let slot := GetSlotNumInternal key node
      if slot = -1 then some none
      else findLeafGet t key fuel (node.ValueAt slot)

/-- BPlusTree::GetValue (lines 74-133): empty tree and failed descents
give some none; at the leaf, GetSlotNum decides membership. -/
def getValue (t : BPlusTree) (fuel : Nat) (key : Int) : Option (Option Rid) :=
  if t.root_page_id = INVALID_PAGE_ID then some none
  else
    match findLeafGet t key fuel t.root_page_id with
    | none => none
    | some none => some none
    | some (some lid) =>
      match t.store lid with
      | some (BPTNode.leaf leaf) =>
        let slot := GetSlotNumLeaf key leaf
        if slot ≠ -1 then some (some (leaf.ValueAt slot)) else some none
      | _ => none

/-- Point update of the page store (a page write through a guard). -/
def storeSet (store : Int → Option BPTNode) (pid : Int) (n : BPTNode) : Int → Option BPTNode :=
  fun q => if q = pid then some n else store q

/-- BPlusTreePage::GetSize through the common header. -/
def bptSize : BPTNode → Nat
  | BPTNode.leaf n => n.size
  | BPTNode.internal n => n.size

/-- BPlusTreePage::GetMaxSize through the common header. -/
def bptMax : BPTNode → Nat
  | BPTNode.leaf n => n.max_size
  | BPTNode.internal n => n.max_size

/-- BPlusTreePage::IsLeafPage through the common header. -/
def bptIsLeaf : BPTNode → Bool
  | BPTNode.leaf _ => true
  | BPTNode.internal _ => false

/-- Leaf Init (Modelled from the spec: a fresh leaf page has size 0, no
next page and the configured max size; untouched slots read as zeros). -/
def leafInit (max_size : Nat) : LeafNode :=
  { size := 0, max_size := max_size, keys := fun _ => 0, vals := fun _ => (0, 0),
    next_page_id := INVALID_PAGE_ID }

/-- BPlusTreeInternalPage::Init (b_plus_tree_internal_page.cpp lines
24-33): write the sentinel key 0 at slot 0, set size 1, then store
INVALID_PAGE_ID at value slot 0. -/
def internalInit (max_size : Nat) : InternalNode :=
  let n : InternalNode := { size := 0, max_size := max_size, keys := fun _ => 0,
                            children := fun _ => 0 }
  let n := n.SetKeyAt 0 0
  let n := { n with size := 1 }
  n.SetValueAt 0 INVALID_PAGE_ID

/-- Iterate a loop body over i = start, start+1, ..., start+count-1. -/
def forUp {σ : Type} (f : Nat → σ → σ) : Nat → Nat → σ → σ
  | _, 0, s => s
  | i, c + 1, s => forUp f (i + 1) c (f i s)

/-- Iterate a loop body over i = start, start-1, ..., start-count+1. -/
def forDown {σ : Type} (f : Nat → σ → σ) : Nat → Nat → σ → σ
  | _, 0, s => s
  | i, c + 1, s => forDown f (i - 1) c (f i s)

/-- First index i in [start, start+count) satisfying p (a for loop with
a break). -/
def firstIdx (p : Nat → Bool) : Nat → Nat → Option Nat
  | _, 0 => none
  | i, c + 1 => if p i then some i else firstIdx p (i + 1) c

/-- The optimistic crab descent of Insert (lines 237-248): follow
GetSlotNum children of read-latched internal pages until the current
page's sentinel key equals the vice key 1, then the chosen child is the
leaf to write-latch. -/
def findLeafCrab (t : BPlusTree) (key : Int) : Nat → InternalNode → Option Int
  | 0, _ => none
  | fuel + 1, cur =>
    let slot := GetSlotNumInternal key cur
    if cmp (cur.KeyAt 0) 1 ≠ 0 then
      match t.store (cur.ValueAt slot) with
      | some (BPTNode.internal next) => findLeafCrab t key fuel next
      | _ => none
    else some (cur.ValueAt slot)

/-- One iteration of the in-place leaf insert loop (lines 278-287):
once the insert slot is found, slide the tail right while placing the
pending pair. -/
def leafInsertStep (key : Int) (i : Nat) :
    LeafNode × (Int × Rid) × Bool → LeafNode × (Int × Rid) × Bool
  | (l, ins, started0) =>
    let started := started0 || decide (cmp key (l.KeyAt (i : Int)) < 0)
    if started then
      (l.SetAt (i : Int) ins.1 ins.2, (l.KeyAt (i : Int), l.ValueAt (i : Int)), true)
    else (l, ins, started)

/-- The non-split leaf insert (lines 278-289, also lines 406-418):
shift and place, grow by one, and write the pending pair at the new
last slot. -/
def leafOptInsert (leaf : LeafNode) (key : Int) (value : Rid) : LeafNode :=
  let s := forUp (leafInsertStep key) 0 leaf.size (leaf, (key, value), false)
  let l2 := { s.1 with size := s.1.size + 1 }
  l2.SetAt ((l2.size : Int) - 1) s.2.1.1 s.2.1.2

/-- The pessimistic crab descent of Insert (lines 343-369): every
fetched page is pushed on the write set, which is cleared first
whenever that page is not full; the final leaf is popped off again. -/
def insDescend (t : BPlusTree) (key : Int) :
    Nat → List (Option Int) → Int → Option (List (Option Int) × Int)
  | 0, _, _ => none
  | fuel + 1, ws, pid =>
    match t.store pid with
    | none => none
    | some node =>
      let kept := if bptSize node < bptMax node then ([] : List (Option Int)) else ws
      match node with
      | BPTNode.leaf _ => some (kept, pid)
      | BPTNode.internal inode =>
        insDescend t key fuel (kept ++ [some pid])
          (inode.ValueAt (GetSlotNumInternal key inode))

/-- One iteration of the leaf split loop (lines 443-460): keys below
the pivot slide within the old leaf, the rest migrate to the new split
leaf, with the pending pair woven in once its slot is found. -/
def leafSplitStep (key : Int) (half : Nat) (i : Nat) :
    LeafNode × LeafNode × (Int × Rid) × Bool → LeafNode × LeafNode × (Int × Rid) × Bool
  | (l, sp, ins, set0) =>
    let set := set0 || decide (cmp key (l.KeyAt (i : Int)) < 0)
    if set || decide (half ≤ i) then
      if i < half then
        (l.SetAt (i : Int) ins.1 ins.2, sp, (l.KeyAt (i : Int), l.ValueAt (i : Int)), set)
      else
        if set then
          (l, sp.SetAt ((i - half : Nat) : Int) ins.1 ins.2,
           (l.KeyAt (i : Int), l.ValueAt (i : Int)), set)
        else
          (l, sp.SetAt ((i - half : Nat) : Int) (l.KeyAt (i : Int)) (l.ValueAt (i : Int)),
           ins, set)
    else (l, sp, ins, set)

/-- The leaf split of Insert (lines 434-471): the new right leaf takes
the upper half, sizes are (max+1)/2 and (max+1)-(max+1)/2, the pending
pair lands in order, the split key is the right leaf's first key, and
the next pointers are relinked.  Returns (left leaf, right leaf, split
key). -/
def leafSplit (leaf : LeafNode) (key : Int) (value : Rid) (split_page_id : Int)
    (leaf_max : Nat) : LeafNode × LeafNode × Int :=
  let max := leaf.max_size
  let half := (max + 1) / 2
  let sp0 := leafInit leaf_max
  let sp0 := { sp0 with size := (max + 1) - half }
  let s := forUp (leafSplitStep key half) 0 max (leaf, sp0, (key, value), false)
  let l := { s.1 with size := half }
  let sp := s.2.1
  let ins := s.2.2.1
  let sp := sp.SetAt ((sp.size : Int) - 1) ins.1 ins.2
  let split_key := sp.KeyAt 0
  let sp := { sp with next_page_id := l.next_page_id }
  let l := { l with next_page_id := split_page_id }
  (l, sp, split_key)

/-- The rolling state of the internal split loop (lines 491-532). -/
structure InsSplitState where
  parent : InternalNode
  split : InternalNode
  kins : Int
  pins : Int
  nsk : Int
  set : Bool

/-- One iteration of the internal split loop (lines 497-532): slots
below the pivot slide within the parent, the pivot slot's key becomes
the new split key and its value child 0 of the split page, and the
upper slots migrate to the split page, weaving in the pending pair. -/
def internalSplitStep (split_key : Int) (half : Nat) (i : Nat) (st : InsSplitState) :
    InsSplitState :=
  let set := st.set || decide (cmp split_key (st.parent.KeyAt (i : Int)) < 0)
  if set || decide (half ≤ i) then
    if i < half then
      let ktmp := st.parent.KeyAt (i : Int)
      let ptmp := st.parent.ValueAt (i : Int)
      let p := (st.parent.SetKeyAt (i : Int) st.kins).SetValueAt (i : Int) st.pins
      { st with parent := p, kins := ktmp, pins := ptmp, set := set }
    else if i = half then
      if set then
        { st with nsk := st.kins, split := st.split.SetValueAt 0 st.pins,
                  kins := st.parent.KeyAt (i : Int), pins := st.parent.ValueAt (i : Int),
                  set := set }
      else
        { st with nsk := st.parent.KeyAt (i : Int),
                  split := st.split.SetValueAt 0 (st.parent.ValueAt (i : Int)), set := set }
    else
      if set then
        { st with split := (st.split.SetKeyAt ((i - half : Nat) : Int) st.kins).SetValueAt
                    ((i - half : Nat) : Int) st.pins,
                  kins := st.parent.KeyAt (i : Int), pins := st.parent.ValueAt (i : Int),
                  set := set }
      else
        { st with split := (st.split.SetKeyAt ((i - half : Nat) : Int)
                    (st.parent.KeyAt (i : Int))).SetValueAt ((i - half : Nat) : Int)
                    (st.parent.ValueAt (i : Int)), set := set }
  else { st with set := set }

/-- The internal split of one parent (lines 484-546): the split page's
size is (max+1)-(max/2+1)-1+1, the loop runs over slots 1..max-1, the
parent keeps max/2+1 slots, the pending pair lands at the split page's
last slot, and the first split of a run stamps the vice key 1 into
slot 0.  Returns (shrunk parent, split page, new split key). -/
def internalSplit (parent : InternalNode) (split_key split_page_id : Int)
    (internal_max : Nat) (vice : Bool) : InternalNode × InternalNode × Int :=
  let pmax := parent.max_size
  let half := pmax / 2 + 1
  let sp0 := internalInit internal_max
  let sp0 := { sp0 with size := (((pmax : Int) + 1) - ((pmax : Int) / 2 + 1) - 1 + 1).toNat }
  let st0 : InsSplitState :=
    { parent := parent, split := sp0, kins := split_key, pins := split_page_id,
      nsk := split_key, set := false }
  let st := forUp (internalSplitStep split_key half) 1 (pmax - 1) st0
  let p := { st.parent with size := half }
  let sp := (st.split.SetKeyAt ((st.split.size : Int) - 1) st.kins).SetValueAt
              ((st.split.size : Int) - 1) st.pins
  let sp := if vice then sp.SetKeyAt 0 1 else sp
  (p, sp, st.nsk)

/-- The rolling state of the upward split propagation (lines 477-548). -/
structure InsUpState where
  store : Int → Option BPTNode
  ws : List (Option Int)
  split_key : Int
  split_pid : Int
  orign_pid : Int
  vice : Bool
  next_pid : Int

/-- The upward split loop of Insert (lines 477-548): while more than
one guard remains on the write set, allocate a fresh page, pop the
deepest parent, split it, and roll the split key and page id upward;
the vice stamp is spent on the first iteration. -/
def insertUpLoop (imax : Nat) : Nat → InsUpState → Option InsUpState
  | 0, st => if st.ws.length ≤ 1 then some st else none
  | fuel + 1, st =>
    if st.ws.length ≤ 1 then some st
    else
      match st.ws.getLast? with
      | some (some ppid) =>
        match st.store ppid with
        | some (BPTNode.internal parent) =>
          let new_split_pid := st.next_pid
          let r := internalSplit parent st.split_key st.split_pid imax st.vice
          insertUpLoop imax fuel
            { store := storeSet (storeSet st.store ppid (BPTNode.internal r.1)) new_split_pid
                (BPTNode.internal r.2.1),
              ws := st.ws.dropLast,
              split_key := r.2.2, split_pid := new_split_pid, orign_pid := ppid,
              vice := false, next_pid := st.next_pid + 1 }
        | _ => none
      | _ => none

/-- The pessimistic phase of Insert (lines 306-618): create a root
leaf on an empty tree; otherwise descend collecting full ancestors,
re-check for a duplicate, insert in place when the leaf has room, and
otherwise split the leaf and propagate upward, ending in either a root
rebuild (header still on the write set) or a plain insert into the
last non-full parent. -/
def insertPessimistic (t : BPlusTree) (fuel : Nat) (key : Int) (value : Rid) :
    Option (Bool × BPlusTree) :=
  if t.root_page_id = INVALID_PAGE_ID then
    let rid := t.next_page_id
    let root := leafInit t.leaf_max_size
    let root := { root with size := root.size + 1 }
    let root := root.SetAt 0 key value
    some (true, { t with root_page_id := rid, next_page_id := t.next_page_id + 1,
                         store := storeSet t.store rid (BPTNode.leaf root) })
  else
    match insDescend t key fuel [none] t.root_page_id with
    | none => none
    | some (ws, lid) =>
      match t.store lid with
      | some (BPTNode.leaf leaf) =>
        if GetSlotNumLeaf key leaf ≠ -1 then some (false, t)
        else if leaf.size < leaf.max_size then
          let st2 := storeSet t.store lid (BPTNode.leaf (leafOptInsert leaf key value))
          some (true, { t with store := st2 })
        else
          let split_pid := t.next_page_id
          let r := leafSplit leaf key value split_pid t.leaf_max_size
          let store1 := storeSet (storeSet t.store lid (BPTNode.leaf r.1)) split_pid
                          (BPTNode.leaf r.2.1)
          let st0 : InsUpState :=
            { store := store1, ws := ws, split_key := r.2.2, split_pid := split_pid,
              orign_pid := lid, vice := true, next_pid := t.next_page_id + 1 }
          match insertUpLoop t.internal_max_size ws.length st0 with
          | none => none
          | some st =>
            match st.ws with
            | [none] =>
              let root_pid := st.next_pid
              let root := internalInit t.internal_max_size
              let root := { root with size := root.size + 1 }
              let root := (root.SetKeyAt 1 st.split_key).SetValueAt 1 st.split_pid
              let root := root.SetValueAt 0 st.orign_pid
              let root := if st.vice then root.SetKeyAt 0 1 else root
              some (true, { t with root_page_id := root_pid,
                                   store := storeSet st.store root_pid (BPTNode.internal root),
                                   next_page_id := st.next_pid + 1 })
            | [some ppid] =>
              match st.store ppid with
              | some (BPTNode.internal parent) =>
                let islot := GetSlotNumInternal st.split_key parent + 1
                let parent := { parent with size := parent.size + 1 }
                let parent := forDown
                    (fun i p => (p.SetKeyAt (i : Int) (p.KeyAt ((i : Int) - 1))).SetValueAt
                        (i : Int) (p.ValueAt ((i : Int) - 1)))
                    (parent.size - 1) (parent.size - 1 - islot.toNat) parent
                let parent := (parent.SetKeyAt islot st.split_key).SetValueAt islot st.split_pid
                some (true, { t with store := storeSet st.store ppid (BPTNode.internal parent),
                                     next_page_id := st.next_pid })
              | _ => none
            | _ => none
      | _ => none

/-- The tail of the optimistic phase of Insert at the write-latched
leaf (lines 274-299): a duplicate returns false with no mutation, a
non-full leaf takes the pair in place, and a full leaf falls through to
the pessimistic phase. -/
def insertAtCrabLeaf (t : BPlusTree) (fuel : Nat) (key : Int) (value : Rid) (lid : Int) :
    Option (Bool × BPlusTree) :=
  match t.store lid with
  | some (BPTNode.leaf leaf) =>
    if GetSlotNumLeaf key leaf ≠ -1 then some (false, t)
    else if leaf.size < leaf.max_size then
      let st2 := storeSet t.store lid (BPTNode.leaf (leafOptInsert leaf key value))
      some (true, { t with store := st2 })
    else insertPessimistic t fuel key value
  | _ => none

/-- BPlusTree::Insert (lines 191-618): the optimistic phase runs when
the tree is non-empty, locating the leaf by the crab descent (the root
itself when it is a leaf); otherwise, and when the leaf is full, the
pessimistic phase takes over. -/
def insert (t : BPlusTree) (fuel : Nat) (key : Int) (value : Rid) :
    Option (Bool × BPlusTree) :=
  if t.root_page_id ≠ INVALID_PAGE_ID then
    match t.store t.root_page_id with
    | none => none
    | some (BPTNode.leaf _) => insertAtCrabLeaf t fuel key value t.root_page_id
    | some (BPTNode.internal inode) =>
      match findLeafCrab t key fuel inode with
      | none => none
      | some lid => insertAtCrabLeaf t fuel key value lid
  else insertPessimistic t fuel key value

/-- The child pick of the Remove descent (lines 658-666): the first
slot i in [1, size) whose key exceeds the target yields child i-1, the
last slot falls through to child size-1; a page with at most one entry
leaves the guard empty (stuck). -/
def removeChildSlot (node : InternalNode) (key : Int) : Option Int :=
  match firstIdx (fun i => decide (cmp key (node.KeyAt (i : Int)) < 0)) 1 (node.size - 1) with
  | some i => some ((i : Int) - 1)
  | none => if 2 ≤ node.size then some ((node.size : Int) - 1) else none

/-- The Remove descent (lines 656-672): follow the picked child,
clearing the write set whenever the fetched child is above its min
size, pushing every fetched page; the leaf is popped off again.  The
list passed in holds the path so far including the current page. -/
def rmDescend (t : BPlusTree) (key : Int) :
    Nat → List (Option Int) → Int → Option (List (Option Int) × Int)
  | 0, _, _ => none
  | fuel + 1, ws, pid =>
    match t.store pid with
    | none => none
    | some (BPTNode.leaf _) => some (ws.dropLast, pid)
    | some (BPTNode.internal inode) =>
      match removeChildSlot inode key with
      | none => none
      | some slot =>
        let child := inode.ValueAt slot
        match t.store child with
        | none => none
        | some cnode =>
          let kept := if cnode.GetMinSize < bptSize cnode then ([] : List (Option Int)) else ws
          rmDescend t key fuel (kept ++ [some child]) child

/-- Leaf borrow from the right sibling (lines 716-727 and 818-826):
take the sibling's first pair, refresh the parent separator from the
sibling's new first key, and slide the sibling left.  Returns (leaf,
parent, right sibling). -/
def leafBorrowRight (leaf : LeafNode) (parent : InternalNode) (rsib : LeafNode)
    (oslot : Int) : LeafNode × InternalNode × LeafNode :=
  let leaf := { leaf with size := leaf.size + 1 }
  let leaf := leaf.SetAt ((leaf.size : Int) - 1) (rsib.KeyAt 0) (rsib.ValueAt 0)
  let parent := parent.SetKeyAt (oslot + 1) (rsib.KeyAt 1)
  let rsib := forUp
      (fun i r => r.SetAt ((i : Int) - 1) (r.KeyAt (i : Int)) (r.ValueAt (i : Int)))
      1 (rsib.size - 1) rsib
  let rsib := { rsib with size := rsib.size - 1 }
  (leaf, parent, rsib)

/-- Leaf merge into the right sibling (lines 729-744 and 841-853):
adopt the sibling's next pointer, append its pairs, and close the
parent's gap.  Returns (leaf, parent). -/
def leafMergeRight (leaf : LeafNode) (parent : InternalNode) (rsib : LeafNode)
    (oslot : Int) : LeafNode × InternalNode :=
  let leaf := { leaf with next_page_id := rsib.next_page_id }
  let i0 := leaf.size
  let leaf := { leaf with size := leaf.size + rsib.size }
  let leaf := forUp
      (fun j l => l.SetAt ((i0 + j : Nat) : Int) (rsib.KeyAt (j : Int)) (rsib.ValueAt (j : Int)))
      0 rsib.size leaf
  let parent := forUp
      (fun i p => (p.SetKeyAt ((i : Int) - 1) (p.KeyAt (i : Int))).SetValueAt ((i : Int) - 1)
          (p.ValueAt (i : Int)))
      (oslot.toNat + 2) (parent.size - (oslot.toNat + 2)) parent
  let parent := { parent with size := parent.size - 1 }
  (leaf, parent)

/-- Leaf borrow from the left sibling (lines 786-797 and 829-839):
slide the leaf right, take the sibling's last pair at slot 0, and
refresh the parent separator.  Returns (leaf, parent, left sibling). -/
def leafBorrowLeft (leaf : LeafNode) (parent : InternalNode) (lsib : LeafNode)
    (oslot : Int) : LeafNode × InternalNode × LeafNode :=
  let leaf := { leaf with size := leaf.size + 1 }
  let leaf := forDown
      (fun i l => l.SetAt (i : Int) (l.KeyAt ((i : Int) - 1)) (l.ValueAt ((i : Int) - 1)))
      (leaf.size - 1) (leaf.size - 1) leaf
  let leaf := leaf.SetAt 0 (lsib.KeyAt ((lsib.size : Int) - 1)) (lsib.ValueAt ((lsib.size : Int) - 1))
  let parent := parent.SetKeyAt oslot (lsib.KeyAt ((lsib.size : Int) - 1))
  let lsib := { lsib with size := lsib.size - 1 }
  (leaf, parent, lsib)

/-- Leaf merge into the left sibling (lines 799-811): the left sibling
adopts the leaf's next pointer and pairs, and the parent's gap is
closed.  Returns (left sibling, parent). -/
def leafMergeLeft (leaf : LeafNode) (parent : InternalNode) (lsib : LeafNode)
    (oslot : Int) : LeafNode × InternalNode :=
  let lsib := { lsib with next_page_id := leaf.next_page_id }
  let i0 := lsib.size
  let lsib := { lsib with size := lsib.size + leaf.size }
  let lsib := forUp
      (fun j l2 => l2.SetAt ((i0 + j : Nat) : Int) (leaf.KeyAt (j : Int)) (leaf.ValueAt (j : Int)))
      0 leaf.size lsib
  let parent := forUp
      (fun i p => (p.SetKeyAt ((i : Int) - 1) (p.KeyAt (i : Int))).SetValueAt ((i : Int) - 1)
          (p.ValueAt (i : Int)))
      (oslot.toNat + 1) (parent.size - (oslot.toNat + 1)) parent
  let parent := { parent with size := parent.size - 1 }
  (lsib, parent)

/-- Internal borrow from the right sibling (lines 894-910 and 969-985):
the parent separator moves down to the current page's new last slot
with the sibling's child 0, the sibling's key 1 moves up, and the
sibling slides left (its key 1 is overwritten, not moved).  Returns
(curr, parent, right sibling). -/
def internalBorrowRight (curr : InternalNode) (parent : InternalNode) (rsib : InternalNode)
    (oslot : Int) : InternalNode × InternalNode × InternalNode :=
  let curr := { curr with size := curr.size + 1 }
  let curr := curr.SetKeyAt ((curr.size : Int) - 1) (parent.KeyAt (oslot + 1))
  let curr := curr.SetValueAt ((curr.size : Int) - 1) (rsib.ValueAt 0)
  let parent := parent.SetKeyAt (oslot + 1) (rsib.KeyAt 1)
  let rsib := forUp
      (fun i r => ((if i ≠ 1 then r.SetKeyAt ((i : Int) - 1) (r.KeyAt (i : Int)) else r)).SetValueAt
          ((i : Int) - 1) (r.ValueAt (i : Int)))
      1 (rsib.size - 1) rsib
  let rsib := { rsib with size := rsib.size - 1 }
  (curr, parent, rsib)

/-- Internal merge with the right sibling (lines 912-928 and 987-1003):
the parent separator and the sibling's child 0 land after the current
entries, then the sibling's remaining slots follow, and the parent's
gap is closed.  Returns (curr, parent). -/
def internalMergeRight (curr : InternalNode) (parent : InternalNode) (rsib : InternalNode)
    (oslot : Int) : InternalNode × InternalNode :=
  let i0 := curr.size
  let curr := { curr with size := curr.size + rsib.size }
  let curr := curr.SetKeyAt (i0 : Int) (parent.KeyAt (oslot + 1))
  let curr := curr.SetValueAt (i0 : Int) (rsib.ValueAt 0)
  let curr := forUp
      (fun j c => (c.SetKeyAt ((i0 + j : Nat) : Int) (rsib.KeyAt (j : Int))).SetValueAt
          ((i0 + j : Nat) : Int) (rsib.ValueAt (j : Int)))
      1 (rsib.size - 1) curr
  let parent := forUp
      (fun i p => (p.SetKeyAt ((i : Int) - 1) (p.KeyAt (i : Int))).SetValueAt ((i : Int) - 1)
          (p.ValueAt (i : Int)))
      (oslot.toNat + 2) (parent.size - (oslot.toNat + 2)) parent
  let parent := { parent with size := parent.size - 1 }
  (curr, parent)

/-- Internal borrow from the left sibling (lines 933-947 and 1005-1019):
slide the current page right (key 1 untouched by the key shift), the
parent separator lands at key 1, the sibling's last child at child 0,
and the sibling's last key moves up.  Returns (curr, parent, left
sibling). -/
def internalBorrowLeft (curr : InternalNode) (parent : InternalNode) (lsib : InternalNode)
    (oslot : Int) : InternalNode × InternalNode × InternalNode :=
  let curr := { curr with size := curr.size + 1 }
  let curr := forDown
      (fun i c => ((if i ≠ 1 then c.SetKeyAt (i : Int) (c.KeyAt ((i : Int) - 1)) else c)).SetValueAt
          (i : Int) (c.ValueAt ((i : Int) - 1)))
      (curr.size - 1) (curr.size - 1) curr
  let curr := curr.SetKeyAt 1 (parent.KeyAt oslot)
  let curr := curr.SetValueAt 0 (lsib.ValueAt ((lsib.size : Int) - 1))
  let parent := parent.SetKeyAt oslot (lsib.KeyAt ((lsib.size : Int) - 1))
  let lsib := { lsib with size := lsib.size - 1 }
  (curr, parent, lsib)

/-- Internal merge into the left sibling (lines 949-965): the parent
separator and the current page's child 0 land after the sibling's
entries, the current page's remaining slots follow, and the parent's
gap is closed.  Returns (left sibling, parent). -/
def internalMergeLeft (curr : InternalNode) (parent : InternalNode) (lsib : InternalNode)
    (oslot : Int) : InternalNode × InternalNode :=
  let i0 := lsib.size
  let lsib := { lsib with size := lsib.size + curr.size }
  let lsib := lsib.SetKeyAt (i0 : Int) (parent.KeyAt oslot)
  let lsib := lsib.SetValueAt (i0 : Int) (curr.ValueAt 0)
  let lsib := forUp
      (fun j l2 => (l2.SetKeyAt ((i0 + j : Nat) : Int) (curr.KeyAt (j : Int))).SetValueAt
          ((i0 + j : Nat) : Int) (curr.ValueAt (j : Int)))
      1 (curr.size - 1) lsib
  let parent := forUp
      (fun i p => (p.SetKeyAt ((i : Int) - 1) (p.KeyAt (i : Int))).SetValueAt ((i : Int) - 1)
          (p.ValueAt (i : Int)))
      (oslot.toNat + 1) (parent.size - (oslot.toNat + 1)) parent
  let parent := { parent with size := parent.size - 1 }
  (lsib, parent)

/-- The leaf-level rebalance of Remove (lines 703-856): locate the leaf
among the parent's children, then borrow right, borrow left, or merge
(right first).  Returns the updated store and true when Remove returns
at once (a borrow), false when a merge shrank the parent and the
iteration continues. -/
def leafRebalanceStep (store : Int → Option BPTNode) (lid : Int) (leaf : LeafNode)
    (ppid : Int) (parent : InternalNode) (oslot : Int) :
    Option ((Int → Option BPTNode) × Bool) :=
  if oslot = 0 then
    match store (parent.ValueAt (oslot + 1)) with
    | some (BPTNode.leaf rsib) =>
      if leafMinSize rsib.max_size < rsib.size then
        let r := leafBorrowRight leaf parent rsib oslot
        some (storeSet (storeSet (storeSet store lid (BPTNode.leaf r.1)) ppid
            (BPTNode.internal r.2.1)) (parent.ValueAt (oslot + 1)) (BPTNode.leaf r.2.2), true)
      else
        let r := leafMergeRight leaf parent rsib oslot
        some (storeSet (storeSet store lid (BPTNode.leaf r.1)) ppid
            (BPTNode.internal r.2), false)
    | _ => none
  else if oslot = -1 then
    let oslot := (parent.size : Int) - 1
    match store (parent.ValueAt (oslot - 1)) with
    | some (BPTNode.leaf lsib) =>
      if leafMinSize lsib.max_size < lsib.size then
        let r := leafBorrowLeft leaf parent lsib oslot
        some (storeSet (storeSet (storeSet store lid (BPTNode.leaf r.1)) ppid
            (BPTNode.internal r.2.1)) (parent.ValueAt (oslot - 1)) (BPTNode.leaf r.2.2), true)
      else
        let r := leafMergeLeft leaf parent lsib oslot
        some (storeSet (storeSet store (parent.ValueAt (oslot - 1)) (BPTNode.leaf r.1)) ppid
            (BPTNode.internal r.2), false)
    | _ => none
  else
    match store (parent.ValueAt (oslot - 1)), store (parent.ValueAt (oslot + 1)) with
    | some (BPTNode.leaf lsib), some (BPTNode.leaf rsib) =>
      if leafMinSize rsib.max_size < rsib.size then
        let r := leafBorrowRight leaf parent rsib oslot
        some (storeSet (storeSet (storeSet store lid (BPTNode.leaf r.1)) ppid
            (BPTNode.internal r.2.1)) (parent.ValueAt (oslot + 1)) (BPTNode.leaf r.2.2), true)
      else if leafMinSize lsib.max_size < lsib.size then
        let r := leafBorrowLeft leaf parent lsib oslot
        some (storeSet (storeSet (storeSet store lid (BPTNode.leaf r.1)) ppid
            (BPTNode.internal r.2.1)) (parent.ValueAt (oslot - 1)) (BPTNode.leaf r.2.2), true)
      else
        let r := leafMergeRight leaf parent rsib oslot
        some (storeSet (storeSet store lid (BPTNode.leaf r.1)) ppid
            (BPTNode.internal r.2), false)
    | _, _ => none

/-- The internal-level rebalance of one Remove iteration (lines
884-1003): same case split as the leaf level with the internal borrow
and merge moves.  Returns the updated store and true when Remove
returns at once. -/
def internalRebalanceStep (store : Int → Option BPTNode) (cpid : Int) (curr : InternalNode)
    (ppid : Int) (parent : InternalNode) (oslot : Int) :
    Option ((Int → Option BPTNode) × Bool) :=
  if oslot = 0 then
    match store (parent.ValueAt (oslot + 1)) with
    | some (BPTNode.internal rsib) =>
      if internalMinSize rsib.max_size < rsib.size then
        let r := internalBorrowRight curr parent rsib oslot
        some (storeSet (storeSet (storeSet store cpid (BPTNode.internal r.1)) ppid
            (BPTNode.internal r.2.1)) (parent.ValueAt (oslot + 1)) (BPTNode.internal r.2.2), true)
      else
        let r := internalMergeRight curr parent rsib oslot
        some (storeSet (storeSet store cpid (BPTNode.internal r.1)) ppid
            (BPTNode.internal r.2), false)
    | _ => none
  else if oslot = -1 then
    let oslot := (parent.size : Int) - 1
    match store (parent.ValueAt (oslot - 1)) with
    | some (BPTNode.internal lsib) =>
      if internalMinSize lsib.max_size < lsib.size then
        let r := internalBorrowLeft curr parent lsib oslot
        some (storeSet (storeSet (storeSet store cpid (BPTNode.internal r.1)) ppid
            (BPTNode.internal r.2.1)) (parent.ValueAt (oslot - 1)) (BPTNode.internal r.2.2), true)
      else
        let r := internalMergeLeft curr parent lsib oslot
        some (storeSet (storeSet store (parent.ValueAt (oslot - 1)) (BPTNode.internal r.1)) ppid
            (BPTNode.internal r.2), false)
    | _ => none
  else
    match store (parent.ValueAt (oslot - 1)), store (parent.ValueAt (oslot + 1)) with
    | some (BPTNode.internal lsib), some (BPTNode.internal rsib) =>
      if internalMinSize rsib.max_size < rsib.size then
        let r := internalBorrowRight curr parent rsib oslot
        some (storeSet (storeSet (storeSet store cpid (BPTNode.internal r.1)) ppid
            (BPTNode.internal r.2.1)) (parent.ValueAt (oslot + 1)) (BPTNode.internal r.2.2), true)
      else if internalMinSize lsib.max_size < lsib.size then
        let r := internalBorrowLeft curr parent lsib oslot
        some (storeSet (storeSet (storeSet store cpid (BPTNode.internal r.1)) ppid
            (BPTNode.internal r.2.1)) (parent.ValueAt (oslot - 1)) (BPTNode.internal r.2.2), true)
      else
        let r := internalMergeRight curr parent rsib oslot
        some (storeSet (storeSet store cpid (BPTNode.internal r.1)) ppid
            (BPTNode.internal r.2), false)
    | _, _ => none

/-- The rolling state of the upward Remove iteration (lines 859-1007). -/
structure RmState where
  store : Int → Option BPTNode
  ws : List (Option Int)
  kfl : Int
  root_page_id : Int

/-- The upward Remove loop (lines 859-1007): while more than one guard
remains, pop the undersized page and its parent; when that parent is
the header the root collapses to the page's child 0; otherwise locate
the page with the running locate key, rebalance, and on a merge push
the parent back and continue.  Returns the final store and root page
id. -/
def removeUpLoop : Nat → RmState → Option ((Int → Option BPTNode) × Int)
  | 0, st => if st.ws.length ≤ 1 then some (st.store, st.root_page_id) else none
  | fuel + 1, st =>
    if st.ws.length ≤ 1 then some (st.store, st.root_page_id)
    else
      match st.ws.getLast? with
      | some (some cpid) =>
        let ws1 := st.ws.dropLast
        match st.store cpid with
        | some (BPTNode.internal curr) =>
          match ws1.getLast? with
          | none => none
          | some none => some (st.store, curr.ValueAt 0)
          | some (some ppid) =>
            match st.store ppid with
            | some (BPTNode.internal parent) =>
              let kfl := if curr.size ≠ 1 then curr.KeyAt 1 else st.kfl
              let oslot : Int :=
                match firstIdx (fun i => decide (cmp kfl (parent.KeyAt (i : Int)) < 0)) 1
                    (parent.size - 1) with
                | some i => (i : Int) - 1
                | none => -1
              let kfl2 := parent.KeyAt 1
              match internalRebalanceStep st.store cpid curr ppid parent oslot with
              | none => none
              | some (store2, true) => some (store2, st.root_page_id)
              | some (store2, false) =>
                removeUpLoop fuel { store := store2, ws := ws1, kfl := kfl2,
                                    root_page_id := st.root_page_id }
            | _ => none
        | _ => none
      | _ => none

/-- The leaf stage of Remove after the descent (lines 690-861): find
the exact slot (missing key returns with no change), delete by sliding
left, return at once when the leaf is still at min size or is the root
(an emptied root resets the header to INVALID_PAGE_ID); otherwise
rebalance against a sibling and, after a merge, run the upward loop. -/
def removeAtLeaf (t : BPlusTree) (ws : List (Option Int)) (lid : Int) (leaf0 : LeafNode)
    (key : Int) : Option BPlusTree :=
  let kfl := leaf0.KeyAt 0
  match firstIdx (fun i => decide (cmp key (leaf0.KeyAt (i : Int)) = 0)) 0 leaf0.size with
  | none => some t
  | some ds =>
    let leaf := forUp
        (fun i l => l.SetAt ((i : Int) - 1) (l.KeyAt (i : Int)) (l.ValueAt (i : Int)))
        (ds + 1) (leaf0.size - (ds + 1)) leaf0
    let leaf := { leaf with size := leaf.size - 1 }
    if leafMinSize leaf.max_size ≤ leaf.size ∨ lid = t.root_page_id then
      if leaf.size = 0 then
        some { t with root_page_id := INVALID_PAGE_ID,
                      store := storeSet t.store lid (BPTNode.leaf leaf) }
      else some { t with store := storeSet t.store lid (BPTNode.leaf leaf) }
    else
      match ws.getLast? with
      | some (some ppid) =>
        match t.store ppid with
        | some (BPTNode.internal parent) =>
          let oslot : Int :=
            match firstIdx (fun i => decide (cmp key (parent.KeyAt (i : Int)) < 0)) 1
                (parent.size - 1) with
            | some i => (i : Int) - 1
            | none => -1
          let store0 := storeSet t.store lid (BPTNode.leaf leaf)
          match leafRebalanceStep store0 lid leaf ppid parent oslot with
          | none => none
          | some (store1, true) => some { t with store := store1 }
          | some (store1, false) =>
            let st1 : RmState :=
              { store := store1, ws := ws, kfl := kfl, root_page_id := t.root_page_id }
            match removeUpLoop ws.length st1 with
            | none => none
            | some (store2, root2) => some { t with store := store2, root_page_id := root2 }
        | _ => none
      | _ => none

/-- BPlusTree::Remove (lines 631-1013): nothing on an empty tree;
otherwise descend with the write set (the root is kept when a leaf
root has fewer than 2 entries or an internal root fewer than 3), then
run the leaf stage. -/
def remove (t : BPlusTree) (fuel : Nat) (key : Int) : Option BPlusTree :=
  if t.root_page_id = INVALID_PAGE_ID then some t
  else
    match t.store t.root_page_id with
    | none => none
    | some rnode =>
      let kept : List (Option Int) :=
        if (bptIsLeaf rnode && decide (2 ≤ bptSize rnode)) || decide (3 ≤ bptSize rnode)
        then [] else [none]
      match rmDescend t key fuel (kept ++ [some t.root_page_id]) t.root_page_id with
      | none => none
      | some (ws, lid) =>
        match t.store lid with
        | some (BPTNode.leaf leaf) => removeAtLeaf t ws lid leaf key
        | _ => none

/-- The shared upper-mid binary search loop of BPlusTree::BinaryFind
(lines 1020-1056): while l < r, keep the mid when its key does not
exceed the target, else move r below the mid.  The chosen fuel bounds
the loop and never runs out since the interval shrinks. -/
def binaryFindLoop (get : Int → Int) (key : Int) : Nat → Int → Int → Int × Int
  | 0, l, r => (l, r)
  | fuel + 1, l, r =>
    if l < r then
      let mid := (l + r + 1) / 2
      if cmp (get mid) key ≠ 1 then binaryFindLoop get key fuel mid r
      else binaryFindLoop get key fuel l (mid - 1)
    else (l, r)

/-- BinaryFind on a leaf page (lines 1019-1036): the last slot whose
key is ≤ the target, -1 when the first key already exceeds it (or the
leaf is empty). -/
def BinaryFindLeaf (leaf : LeafNode) (key : Int) : Int :=
  let r := (binaryFindLoop (fun i => leaf.KeyAt i) key (leaf.size + 2) 0 ((leaf.size : Int) - 1)).2
  if 0 ≤ r ∧ cmp (leaf.KeyAt r) key = 1 then -1 else r

/-- BinaryFind on an internal page (lines 1039-1056): the last slot in
[1, size) whose key is ≤ the target, clamped to 0. -/
def BinaryFindInternal (node : InternalNode) (key : Int) : Int :=
  let r := (binaryFindLoop (fun i => node.KeyAt i) key (node.size + 2) 1 ((node.size : Int) - 1)).2
  if r = -1 ∨ cmp (node.KeyAt r) key = 1 then 0 else r

/-- What Begin(key) produces: an iterator over a page and slot (End is
the iterator at page -1, slot -1), or the BUSTUB_ENSURE abort. -/
inductive BeginOutcome where
  | it (page_id slot : Int)
  | ensureFail
deriving DecidableEq

/-- The descent of Begin(key) (lines 1102-1124): follow BinaryFind
children until a leaf; at the leaf, slot -1 trips BUSTUB_ENSURE,
otherwise the iterator points at the found slot. -/
def beginDescend (t : BPlusTree) (key : Int) : Nat → Int → Option BeginOutcome
  | 0, _ => none
  | fuel + 1, pid =>
    match t.store pid with
    | none => none
    | some (BPTNode.leaf leaf) =>
      let slot := BinaryFindLeaf leaf key
      if slot ≠ -1 then some (BeginOutcome.it pid slot) else some BeginOutcome.ensureFail
    | some (BPTNode.internal node) =>
      let slot := BinaryFindInternal node key
      if slot = -1 then some BeginOutcome.ensureFail
      else beginDescend t key fuel (node.ValueAt slot)

/-- BPlusTree::Begin(key) (lines 1094-1124): End on an empty tree,
else the descent from the root. -/
def beginKey (t : BPlusTree) (fuel : Nat) (key : Int) : Option BeginOutcome :=
  if t.root_page_id = INVALID_PAGE_ID then some (BeginOutcome.it (-1) (-1))
  else beginDescend t key fuel t.root_page_id

/-- A quiescent workload step: one Insert or one Remove call. -/
inductive TreeOp where
  | ins (key : Int) (value : Rid)
  | del (key : Int)

/-- Run a sequence of Insert and Remove calls. -/
def applyOps (fuel : Nat) : BPlusTree → List TreeOp → Option BPlusTree
  | t, [] => some t
  | t, op :: rest =>
    match op with
    | TreeOp.ins k v =>
      match insert t fuel k v with
      | none => none
      | some (_, t2) => applyOps fuel t2 rest
    | TreeOp.del k =>
      match remove t fuel k with
      | none => none
      | some t2 => applyOps fuel t2 rest

/-- The freshly constructed index: empty header, empty pool, first
allocatable page id 1. -/
def emptyTree (lmax imax : Nat) : BPlusTree :=
  { root_page_id := INVALID_PAGE_ID, store := fun _ => none, next_page_id := 1,
    leaf_max_size := lmax, internal_max_size := imax }

/-- The size of the leaf stored at a page id (0 when absent or not a
leaf). -/
def leafSizeAtPage (t : BPlusTree) (pid : Int) : Nat :=
  match t.store pid with
  | some (BPTNode.leaf l) => l.size
  | _ => 0

/-- The key of a slot of the leaf stored at a page id (0 when absent
or not a leaf). -/
def leafKeyAtPage (t : BPlusTree) (pid : Int) (i : Int) : Int :=
  match t.store pid with
  | some (BPTNode.leaf l) => l.KeyAt i
  | _ => 0

/-- Strictly increasing keys on a leaf page. -/
def sortedLeaf (l : LeafNode) : Prop :=
  ∀ i j : Nat, i < j → j < l.size → l.keys i < l.keys j

/-- Every leaf page of the store has strictly increasing keys. -/
def treeLeavesSorted (t : BPlusTree) : Prop :=
  ∀ pid l, t.store pid = some (BPTNode.leaf l) → sortedLeaf l

/-- Structural well-formedness of the subtree at a page: a leaf at
height 0; at height h+1 an internal page whose sentinel key equals the
vice key 1 exactly on the bottom internal level and whose children
below its size are all well-formed at height h. -/
def subtreeWF (t : BPlusTree) : Nat → Int → Prop
  | 0, pid => ∃ l, t.store pid = some (BPTNode.leaf l)
  | h + 1, pid => ∃ node, t.store pid = some (BPTNode.internal node) ∧
      (cmp (node.KeyAt 0) 1 = 0 ↔ h = 0) ∧
      ∀ j : Nat, j < node.size → subtreeWF t h (node.children j)

/-- The operation sequence of the leaf occupancy scenario: with
leaf_max_size 3, fill a leaf, force one split, then remove the last
key. -/
def c7Ops : List TreeOp :=
  [TreeOp.ins 1 (1, 1), TreeOp.ins 2 (2, 2), TreeOp.ins 3 (3, 3), TreeOp.ins 4 (4, 4),
   TreeOp.del 4]

/-- The tree reached by the leaf occupancy scenario. -/
def c7Tree : BPlusTree := (applyOps 20 (emptyTree 3 3) c7Ops).getD (emptyTree 3 3)

/-- The tree of the iterator scenario: two Inserts into an empty index
with leaf_max_size 3, leaving the single root leaf [1, 3]. -/
def c8Tree : BPlusTree :=
  (applyOps 20 (emptyTree 3 3) [TreeOp.ins 1 (1, 1), TreeOp.ins 3 (3, 3)]).getD (emptyTree 3 3)

/-- A concrete sorted root leaf holding keys 1 and 3. -/
def c8WitLeaf : LeafNode :=
  { size := 2, max_size := 3,
    keys := fun i => if i = 0 then 1 else if i = 1 then 3 else 0,
    vals := fun i => if i = 0 then (1, 1) else if i = 1 then (3, 3) else (0, 0),
    next_page_id := INVALID_PAGE_ID }

/-- A concrete tree whose root is the leaf [1, 3] at page 1. -/
def c8WitTree : BPlusTree :=
  { root_page_id := 1,
    store := fun pid => if pid = 1 then some (BPTNode.leaf c8WitLeaf) else none,
    next_page_id := 2, leaf_max_size := 3, internal_max_size := 3 }

/-- A concrete two-level tree: internal root at page 3 with vice
sentinel 1 and separator 3 over the leaves [1, 2] at page 1 and [3] at
page 2. -/
def c5Tree : BPlusTree :=
  { root_page_id := 3,
    store := fun pid =>
      if pid = 1 then
        some (BPTNode.leaf
          { size := 2, max_size := 3,
            keys := fun i => if i = 0 then 1 else if i = 1 then 2 else 0,
            vals := fun i => if i = 0 then (1, 1) else if i = 1 then (2, 2) else (0, 0),
            next_page_id := 2 })
      else if pid = 2 then
        some (BPTNode.leaf
          { size := 1, max_size := 3,
            keys := fun i => if i = 0 then 3 else 0,
            vals := fun i => if i = 0 then (3, 3) else (0, 0),
            next_page_id := INVALID_PAGE_ID })
      else if pid = 3 then
        some (BPTNode.internal
          { size := 2, max_size := 3,
            keys := fun i => if i = 0 then 1 else if i = 1 then 3 else 0,
            children := fun i => if i = 0 then 1 else if i = 1 then 2 else 0 })
      else none,
    next_page_id := 4, leaf_max_size := 3, internal_max_size := 3 }

/-- The size of the internal page stored at a page id (0 when absent
or a leaf). -/
def internalSizeAtPage (t : BPlusTree) (pid : Int) : Nat :=
  match t.store pid with
  | some (BPTNode.internal n) => n.size
  | _ => 0

/-- A child page id of the internal page stored at a page id (-1 when
absent or a leaf). -/
def internalChildAtPage (t : BPlusTree) (pid : Int) (i : Int) : Int :=
  match t.store pid with
  | some (BPTNode.internal n) => n.ValueAt i
  | _ => -1

/-- Looking up the updated key of mapAtKey applies the update. -/
theorem lookup_mapAtKey {κ α : Type} [DecidableEq κ] [BEq κ] [LawfulBEq κ]
    (l : List (κ × α)) (fid : κ) (g : α → α) :
    (mapAtKey l fid g).lookup fid = (l.lookup fid).map g := by
  induction l with
  | nil => rfl
  | cons e rest ih =>
    rcases e with ⟨k, v⟩
    show List.lookup fid ((if k = fid then (k, g v) else (k, v)) :: mapAtKey rest fid g) = _
    by_cases h : k = fid
    · rw [if_pos h]
      subst h
      simp [List.lookup]
    · rw [if_neg h]
      have hbe : (fid == k) = false := by
        simp only [beq_eq_false_iff_ne, ne_eq]
        exact fun hh => h hh.symm
      simp only [List.lookup, hbe]
      exact ih

/-- A successful SetEvictable to true leaves the frame's node evictable
(whether or not it already was). -/
theorem setEvictable_true_lookup (r : LRUKReplacer) (fid : Int) (node : LRUKNode)
    (hrange : ¬ (fid < 0 ∨ r.replacer_size ≤ fid.toNat))
    (hl : r.node_store.lookup fid = some node) :
    ∃ r2, r.SetEvictable fid true = some r2 ∧
      (r2.node_store.lookup fid).map LRUKNode.is_evictable = some true := by
  unfold LRUKReplacer.SetEvictable
  rw [if_neg hrange, hl]
  by_cases hev : node.is_evictable
  · refine ⟨r, ?_, ?_⟩
    · simp [hev]
    · rw [hl]
      simp [hev]
  · refine ⟨{ r with
                node_store := mapAtKey r.node_store fid LRUKNode.VerseEvictable,
                curr_size := r.curr_size + 1 }, ?_, ?_⟩
    · simp [hev]
    · simp only [lookup_mapAtKey, hl, Option.map_some]
      simp [LRUKNode.VerseEvictable, hev]

/-- C9: UnpinPage returns false exactly on an absent page or a pin
count already at 0, and otherwise decrements the pin count, marks the
frame evictable exactly when the count reaches 0, and or-folds the
dirty flag (a false argument never clears a prior dirty mark).  The
hypothesis states that the pool's replacer tracks the resident frame,
which the pool establishes on every fetch or allocation. -/
theorem C9_unpinPage_characterization (b : BufferPoolManager) (page_id : Int) (d : Bool)
    (hwf : ∀ f, b.page_table.lookup page_id = some f →
      f < b.replacer.replacer_size ∧
      ∃ node, b.replacer.node_store.lookup (Int.ofNat f) = some node) :
    (b.page_table.lookup page_id = none → b.UnpinPage page_id d = some (false, b)) ∧
    (∀ f, b.page_table.lookup page_id = some f → (b.pages f).pin_count ≤ 0 →
      b.UnpinPage page_id d = some (false, b)) ∧
    (∀ f, b.page_table.lookup page_id = some f → ¬ (b.pages f).pin_count ≤ 0 →
      (b.UnpinPage page_id d).isSome ∧
      ∀ res, b.UnpinPage page_id d = some res →
        res.1 = true ∧
        (res.2.pages f).pin_count = (b.pages f).pin_count - 1 ∧
        (res.2.pages f).is_dirty = ((b.pages f).is_dirty || d) ∧
        (∀ j, j ≠ f → res.2.pages j = b.pages j) ∧
        res.2.page_table = b.page_table ∧
        ((b.pages f).pin_count = 1 →
          (res.2.replacer.node_store.lookup (Int.ofNat f)).map LRUKNode.is_evictable = some true) ∧
        (¬ (b.pages f).pin_count = 1 → res.2.replacer = b.replacer)) := by
  refine ⟨?_, ?_, ?_⟩
  · intro hnone
    simp only [BufferPoolManager.UnpinPage, hnone]
  · intro f hf hpin
    simp only [BufferPoolManager.UnpinPage, hf, if_pos hpin]
  · intro f hf hpin
    obtain ⟨hfr, node, hnode⟩ := hwf f hf
    have hrange : ¬ ((Int.ofNat f) < 0 ∨ b.replacer.replacer_size ≤ (Int.ofNat f).toNat) := by
      rw [not_or]
      constructor
      · exact not_lt.mpr (Int.ofNat_nonneg f)
      · simp only [Int.ofNat_eq_natCast, Int.toNat_natCast]
        exact not_le.mpr hfr
    by_cases hone : (b.pages f).pin_count = 1
    · have hz : (b.pages f).pin_count - 1 ≤ 0 := by omega
      obtain ⟨r2, hr2, hr2ev⟩ := setEvictable_true_lookup b.replacer (Int.ofNat f) node hrange hnode
      simp only [Int.ofNat_eq_natCast] at hr2 hr2ev
      constructor
      · cases d <;> simp [BufferPoolManager.UnpinPage, hf, hpin, hz, hr2]
      · intro res hres
        cases d
        all_goals
          simp [BufferPoolManager.UnpinPage, hf, hpin, hz, hr2] at hres
          subst hres
          refine ⟨rfl, by simp, by simp, ?_, rfl, ?_, ?_⟩
          · intro j hj
            simp [hj]
          · intro _
            simpa using hr2ev
          · intro hc
            exact absurd hone hc
    · have hz : ¬ (b.pages f).pin_count - 1 ≤ 0 := by omega
      constructor
      · cases d <;> simp [BufferPoolManager.UnpinPage, hf, hpin, hz]
      · intro res hres
        cases d
        all_goals
          simp [BufferPoolManager.UnpinPage, hf, hpin, hz] at hres
          subst hres
          refine ⟨rfl, by simp, by simp, ?_, rfl, ?_, ?_⟩
          · intro j hj
            simp [hj]
          · intro h1
            exact absurd h1 hone
          · intro _
            rfl

/-- C9 witness: on the concrete one-page pool, unpinning page 7 with
the dirty flag succeeds, drops the pin count to 0, marks frame 0
evictable and sets the dirty bit. -/
theorem C9_unpinPage_witness :
    ∃ res, bpmScenario.UnpinPage 7 true = some res ∧ res.1 = true ∧
      (res.2.pages 0).pin_count = 0 ∧ (res.2.pages 0).is_dirty = true ∧
      (res.2.replacer.node_store.lookup 0).map LRUKNode.is_evictable = some true := by
  have h := C9_unpinPage_characterization bpmScenario 7 true
    (by
      intro f hf
      have hf0 : f = 0 := by
        simp [bpmScenario] at hf
        omega
      subst hf0
      refine ⟨by norm_num [bpmScenario], { history := [0], k := 1, is_evictable := false }, ?_⟩
      simp [bpmScenario])
  obtain ⟨-, -, h3⟩ := h
  obtain ⟨hsome, hres⟩ := h3 0 (by simp [bpmScenario]) (by norm_num [bpmScenario])
  obtain ⟨res, heq⟩ := Option.isSome_iff_exists.mp hsome
  obtain ⟨h1, h2, h3d, -, -, hev, -⟩ := hres res heq
  refine ⟨res, heq, h1, ?_, ?_, ?_⟩
  · rw [h2]
    norm_num [bpmScenario]
  · rw [h3d]
    simp [bpmScenario]
  · simpa using hev (by norm_num [bpmScenario])

/-- Processing one index write record leaves the index write set
unchanged: the source loop has no pop. -/
theorem abortIndexRecord_preserves_iws (st : AbortState) (record : IndexWriteRecord) :
    (abortIndexRecord st record).index_write_set = st.index_write_set := by
  rcases record with ⟨rid, toid, ioid, w, tp, ot⟩
  cases w <;> rfl

/-- The index loop of Abort never terminates on a non-empty index write
set, whatever the fuel. -/
theorem abortIndexLoop_diverges (fuel : Nat) (st : AbortState)
    (h : st.index_write_set ≠ []) : abortIndexLoop fuel st = none := by
  induction fuel generalizing st with
  | zero => rfl
  | succ n ih =>
    unfold abortIndexLoop
    cases hlast : st.index_write_set.getLast? with
    | none =>
      rw [List.getLast?_eq_none_iff] at hlast
      exact absurd hlast h
    | some record =>
      exact ih _ (by rw [abortIndexRecord_preserves_iws]; exact h)

/-- The table loop of Abort never touches the index write set. -/
theorem abortTableRecord_preserves_iws (st : AbortState) (record : TableWriteRecord)
    (st1 : AbortState) (h : abortTableRecord st record = some st1) :
    st1.index_write_set = st.index_write_set := by
  rcases record with ⟨rid, w, tid⟩
  cases w with
  | INSERT => cases h; rfl
  | DELETE => cases h; rfl
  | UPDATE =>
    unfold abortTableRecord at h
    cases hfind : st.index_write_set.find? fun ir => ir.table_oid == tid && ir.rid == rid with
    | none => rw [hfind] at h; cases h
    | some ir => rw [hfind] at h; cases h; rfl

/-- Auxiliary bounded form of abortTableLoop_preserves_iws. -/
theorem abortTableLoop_preserves_iws_aux (n : Nat) :
    ∀ st st1 : AbortState, st.write_set.length ≤ n →
      abortTableLoop st = some st1 → st1.index_write_set = st.index_write_set := by
  induction n with
  | zero =>
    intro st st1 hlen h
    unfold abortTableLoop at h
    split at h
    · cases h
      rfl
    · rename_i record hlast
      have hnil : st.write_set = [] := List.length_eq_zero.mp (Nat.le_zero.mp hlen)
      rw [hnil] at hlast
      simp at hlast
  | succ n ih =>
    intro st st1 hlen h
    unfold abortTableLoop at h
    split at h
    · cases h
      rfl
    · rename_i record hlast
      have hne : st.write_set ≠ [] := by
        intro hmt
        rw [hmt] at hlast
        simp at hlast
      split at h
      · cases h
      · rename_i st2 hrec
        have hlen2 : ({ st2 with write_set := st.write_set.dropLast } : AbortState).write_set.length ≤ n := by
          simp only [List.length_dropLast]
          omega
        have := ih _ _ hlen2 h
        rw [this]
        exact abortTableRecord_preserves_iws st record st2 hrec

/-- The whole table loop preserves the index write set. -/
theorem abortTableLoop_preserves_iws (st st1 : AbortState)
    (h : abortTableLoop st = some st1) : st1.index_write_set = st.index_write_set :=
  abortTableLoop_preserves_iws_aux st.write_set.length st st1 (le_refl _) h

/-- C2: Abort diverges on every transaction whose index write set is
non-empty: the index undo loop re-reads the back record forever, so the
lock release and the transition to ABORTED are never reached.  Fuel
exhaustion (none) for every fuel is the embedding of non-termination. -/
theorem C2_abort_diverges_on_index_writes (fuel : Nat) (st : AbortState)
    (h : st.index_write_set ≠ []) : TransactionManagerAbort fuel st = none := by
  unfold TransactionManagerAbort
  cases htab : abortTableLoop st with
  | none => rfl
  | some st1 =>
    have hdiv : abortIndexLoop fuel st1 = none := by
      apply abortIndexLoop_diverges
      rw [abortTableLoop_preserves_iws st st1 htab]
      exact h
    simp only [hdiv]

/-- C2 witness: the concrete transaction with one index INSERT record
never finishes aborting. -/
theorem C2_abort_diverges_witness :
    abortScenario.index_write_set ≠ [] ∧ TransactionManagerAbort 5 abortScenario = none :=
  ⟨by simp [abortScenario], C2_abort_diverges_on_index_writes 5 abortScenario
    (by simp [abortScenario])⟩

/-- The source's upgrade-pair test agrees with the specified table on
every pair of distinct modes. -/
theorem upgradeAllowedSrc_eq_spec (old_mode new_mode : LockMode) (hne : old_mode ≠ new_mode) :
    upgradeAllowedSrc old_mode new_mode = specUpgradePermitted old_mode new_mode := by
  cases old_mode <;> cases new_mode <;> first
    | rfl
    | exact absurd rfl hne

/-- C4: on a lock request by a transaction already holding a different
mode on the resource, a pending upgrade (the single upgrading slot is
occupied) raises UPGRADE_CONFLICT; otherwise the upgrade proceeds
exactly for the pairs IS→{S,IX,SIX,X}, S→{SIX,X}, IX→{SIX,X}, SIX→X,
taking the upgrading slot itself, and every other pair raises
INCOMPATIBLE_UPGRADE. -/
theorem C4_upgrade_characterization (q : LockRequestQueue) (txn_id : Int)
    (lock_mode : LockMode) (r : LockRequest)
    (hfind : q.request_queue.find? (fun req => req.txn_id == txn_id) = some r)
    (hne : r.lock_mode ≠ lock_mode) :
    (q.upgrading ≠ INVALID_TXN_ID →
      lockRequestStep q txn_id lock_mode =
        LockStepOutcome.threw AbortReason.UPGRADE_CONFLICT) ∧
    (q.upgrading = INVALID_TXN_ID →
      (specUpgradePermitted r.lock_mode lock_mode = true →
        lockRequestStep q txn_id lock_mode =
          LockStepOutcome.upgradeWait
            { request_queue :=
                q.request_queue.eraseP (fun req => req.txn_id == txn_id) ++
                  [{ txn_id := txn_id, lock_mode := lock_mode, granted := false }],
              upgrading := txn_id }) ∧
      (specUpgradePermitted r.lock_mode lock_mode = false →
        lockRequestStep q txn_id lock_mode =
          LockStepOutcome.threw AbortReason.INCOMPATIBLE_UPGRADE)) := by
  constructor
  · intro hup
    simp [lockRequestStep, hfind, hne, hup]
  · intro hup
    constructor
    · intro hperm
      have hsrc : upgradeAllowedSrc r.lock_mode lock_mode = true := by
        rw [upgradeAllowedSrc_eq_spec _ _ hne]
        exact hperm
      simp [lockRequestStep, hfind, hne, hup, hsrc]
    · intro hperm
      have hsrc : upgradeAllowedSrc r.lock_mode lock_mode = false := by
        rw [upgradeAllowedSrc_eq_spec _ _ hne]
        exact hperm
      simp [lockRequestStep, hfind, hne, hup, hsrc]

/-- C4 witness: transaction 1 holding S upgrades to X when the slot is
free, gets UPGRADE_CONFLICT when transaction 2 is upgrading, and gets
INCOMPATIBLE_UPGRADE for the disallowed pair S→IS. -/
theorem C4_upgrade_witness :
    lockRequestStep lockQueueScenario 1 LockMode.EXCLUSIVE =
      LockStepOutcome.upgradeWait
        { request_queue := [{ txn_id := 1, lock_mode := LockMode.EXCLUSIVE, granted := false }],
          upgrading := 1 } ∧
    lockRequestStep { lockQueueScenario with upgrading := 2 } 1 LockMode.EXCLUSIVE =
      LockStepOutcome.threw AbortReason.UPGRADE_CONFLICT ∧
    lockRequestStep lockQueueScenario 1 LockMode.INTENTION_SHARED =
      LockStepOutcome.threw AbortReason.INCOMPATIBLE_UPGRADE := by
  refine ⟨?_, ?_, ?_⟩
  · have h := (C4_upgrade_characterization lockQueueScenario 1 LockMode.EXCLUSIVE
      { txn_id := 1, lock_mode := LockMode.SHARED, granted := true }
      (by decide) (by decide)).2 (by decide)
    exact (h.1 (by decide)).trans (by decide)
  · have h := (C4_upgrade_characterization { lockQueueScenario with upgrading := 2 } 1
      LockMode.EXCLUSIVE
      { txn_id := 1, lock_mode := LockMode.SHARED, granted := true }
      (by decide) (by decide)).1 (by decide)
    exact h
  · have h := ((C4_upgrade_characterization lockQueueScenario 1 LockMode.INTENTION_SHARED
      { txn_id := 1, lock_mode := LockMode.SHARED, granted := true }
      (by decide) (by decide)).2 (by decide)).2 (by decide)
    exact h

/-- C10: when the transaction holds a granted request on the rid's
queue, UnlockRow succeeds for either force value; with force = true the
transaction state is untouched and only the bookkeeping and the queue
change, while with force = false the state moves to SHRINKING exactly
for X, or for S under REPEATABLE_READ; the queue update (erasing the
grant and notifying) is the same in both cases. -/
theorem C10_unlockRow_force_semantics (m : List (Rid × LockRequestQueue)) (txn : TxnRowLocks)
    (oid : Int) (rid : Rid) (q : LockRequestQueue) (req : LockRequest)
    (hq : m.lookup rid = some q)
    (hreq : q.request_queue.find? (fun r => r.txn_id == txn.txn_id && r.granted) = some req) :
    (∀ force, (LockManagerUnlockRow m txn oid rid force).isOk = true) ∧
    (∀ m2 t2, LockManagerUnlockRow m txn oid rid true = UnlockRowResult.ok m2 t2 →
      t2.state = txn.state ∧
      t2 = DeleteTxnLockRow txn req.lock_mode oid rid ∧
      m2 = mapAtKey m rid (fun qq =>
        { qq with request_queue :=
            qq.request_queue.eraseP (fun r => r.txn_id == txn.txn_id && r.granted) })) ∧
    (∀ m2 t2, LockManagerUnlockRow m txn oid rid false = UnlockRowResult.ok m2 t2 →
      t2.state = (if req.lock_mode = LockMode.EXCLUSIVE ∨
          (req.lock_mode = LockMode.SHARED ∧
            txn.isolation_level = IsolationLevel.REPEATABLE_READ)
        then TransactionState.SHRINKING else txn.state) ∧
      t2.s_row_lock_set = (DeleteTxnLockRow txn req.lock_mode oid rid).s_row_lock_set ∧
      t2.x_row_lock_set = (DeleteTxnLockRow txn req.lock_mode oid rid).x_row_lock_set ∧
      m2 = mapAtKey m rid (fun qq =>
        { qq with request_queue :=
            qq.request_queue.eraseP (fun r => r.txn_id == txn.txn_id && r.granted) })) := by
  refine ⟨?_, ?_, ?_⟩
  · intro force
    simp [LockManagerUnlockRow, hq, hreq, UnlockRowResult.isOk]
  · intro m2 t2 h
    simp only [LockManagerUnlockRow, hq, hreq, Bool.not_true, Bool.false_eq_true, if_false,
      UnlockRowResult.ok.injEq] at h
    obtain ⟨hm, ht⟩ := h
    subst hm
    subst ht
    refine ⟨?_, rfl, rfl⟩
    rcases req with ⟨rtxn, rmode, rgrant⟩
    cases rmode <;> simp [DeleteTxnLockRow]
  · intro m2 t2 h
    simp only [LockManagerUnlockRow, hq, hreq, Bool.not_false, if_true,
      UnlockRowResult.ok.injEq] at h
    obtain ⟨hm, ht⟩ := h
    subst hm
    subst ht
    rcases req with ⟨rtxn, rmode, rgrant⟩
    cases rmode <;>
      cases hiso : txn.isolation_level <;>
        simp [DeleteTxnLockRow, hiso]

/-- C10 witness: transaction 1 holds X on rid (2, 5) under
REPEATABLE_READ in GROWING state; UnlockRow with force keeps the state
GROWING, without force it moves to SHRINKING; both succeed. -/
theorem C10_unlockRow_witness :
    (LockManagerUnlockRow rowLockScenarioMap rowLockScenarioTxn 4 (2, 5) true).isOk = true ∧
    (∀ m2 t2,
      LockManagerUnlockRow rowLockScenarioMap rowLockScenarioTxn 4 (2, 5) true =
        UnlockRowResult.ok m2 t2 → t2.state = TransactionState.GROWING) ∧
    (∀ m2 t2,
      LockManagerUnlockRow rowLockScenarioMap rowLockScenarioTxn 4 (2, 5) false =
        UnlockRowResult.ok m2 t2 → t2.state = TransactionState.SHRINKING) := by
  have h := C10_unlockRow_force_semantics rowLockScenarioMap rowLockScenarioTxn 4 (2, 5)
    { request_queue := [{ txn_id := 1, lock_mode := LockMode.EXCLUSIVE, granted := true }],
      upgrading := INVALID_TXN_ID }
    { txn_id := 1, lock_mode := LockMode.EXCLUSIVE, granted := true }
    (by rfl) (by rfl)
  obtain ⟨hok, htrue, hfalse⟩ := h
  refine ⟨hok true, ?_, ?_⟩
  · intro m2 t2 hrun
    have := (htrue m2 t2 hrun).1
    rw [this]
    rfl
  · intro m2 t2 hrun
    have := (hfalse m2 t2 hrun).1
    rw [this]
    decide

/-- Membership in an ascending insertion. -/
theorem mem_insSorted (x y : Int) (l : List Int) :
    x ∈ insSorted y l ↔ x = y ∨ x ∈ l := by
  induction l with
  | nil => simp [insSorted]
  | cons z zs ih =>
    by_cases h : y ≤ z
    · simp [insSorted, h]
    · simp [insSorted, h, ih]
      tauto

/-- Sorting preserves membership. -/
theorem mem_sortInts (x : Int) (l : List Int) : x ∈ sortInts l ↔ x ∈ l := by
  induction l with
  | nil => simp [sortInts]
  | cons z zs ih =>
    simp only [sortInts, List.foldr] at ih ⊢
    rw [mem_insSorted]
    simp [ih]

/-- A successful lookup names an entry of the list. -/
theorem lookup_mem {κ α : Type} [BEq κ] [LawfulBEq κ] (l : List (κ × α)) (k : κ) (v : α)
    (h : l.lookup k = some v) : (k, v) ∈ l := by
  induction l with
  | nil => cases h
  | cons e rest ih =>
    rcases e with ⟨k2, v2⟩
    by_cases hk : k = k2
    · subst hk
      simp [List.lookup] at h
      subst h
      exact List.mem_cons_self _ _
    · have hbe : (k == k2) = false := by
        simp [beq_eq_false_iff_ne]
        exact hk
      simp [List.lookup, hbe] at h
      exact List.mem_cons_of_mem _ (ih h)

/-- The seed is dominated by the fold of max. -/
theorem seed_le_foldl_max (v : List Int) : ∀ k : Int, k ≤ v.foldl max k := by
  induction v with
  | nil => intro k; exact le_refl k
  | cons a rest ih =>
    intro k
    simp only [List.foldl]
    exact le_trans (le_max_left k a) (ih (max k a))

/-- The fold of max dominates the seed and every list entry. -/
theorem le_foldl_max (v : List Int) (k x : Int) (h : x = k ∨ x ∈ v) :
    x ≤ v.foldl max k := by
  induction v generalizing k with
  | nil =>
    rcases h with rfl | h
    · exact le_refl x
    · cases h
  | cons a rest ih =>
    simp only [List.foldl]
    rcases h with rfl | h
    · exact le_trans (le_max_left x a) (seed_le_foldl_max rest (max x a))
    · rcases List.mem_cons.mp h with rfl | h2
      · exact le_trans (le_max_right k x) (seed_le_foldl_max rest (max k x))
      · exact ih (max k a) (Or.inr h2)

/-- The fold of max is one of the seed or the list entries. -/
theorem foldl_max_mem (v : List Int) (k : Int) : v.foldl max k = k ∨ v.foldl max k ∈ v := by
  induction v generalizing k with
  | nil => exact Or.inl rfl
  | cons a rest ih =>
    simp only [List.foldl]
    rcases ih (max k a) with h | h
    · rcases max_choice k a with hm | hm
      · exact Or.inl (h.trans hm)
      · exact Or.inr (List.mem_cons.mpr (Or.inl (h.trans hm)))
    · exact Or.inr (List.mem_cons.mpr (Or.inr h))

/-- A tail of a walk is a walk. -/
theorem isWalk_tail (g : WaitsFor) (a : Int) (p : List Int)
    (h : isWalk g (a :: p) = true) : isWalk g p = true := by
  cases p with
  | nil => rfl
  | cons b rest =>
    simp only [isWalk, Bool.and_eq_true] at h
    exact h.2

/-- The step structure of a walk of length at least two. -/
theorem isWalk_cons_cons (g : WaitsFor) (a b : Int) (p : List Int)
    (h : isWalk g (a :: b :: p) = true) :
    b ∈ getEdges g a ∧ isWalk g (b :: p) = true := by
  simp only [isWalk, Bool.and_eq_true] at h
  exact ⟨List.elem_iff.mp h.1, h.2⟩

/-- A suffix of a walk is a walk. -/
theorem isWalk_append_right (g : WaitsFor) (a b : List Int)
    (h : isWalk g (a ++ b) = true) : isWalk g b = true := by
  induction a with
  | nil => exact h
  | cons x xs ih =>
    apply ih
    apply isWalk_tail g x (xs ++ b)
    simpa using h

/-- Appending a successor of the last entry keeps a walk a walk. -/
theorem isWalk_snoc (g : WaitsFor) (v : List Int) (k : Int) (hv : isWalk g v = true)
    (hlast : ∀ lastv, v.getLast? = some lastv → k ∈ getEdges g lastv) :
    isWalk g (v ++ [k]) = true := by
  induction v with
  | nil => rfl
  | cons a rest ih =>
    cases rest with
    | nil =>
      simp only [List.cons_append, List.nil_append, isWalk, Bool.and_eq_true]
      exact ⟨List.elem_iff.mpr (hlast a rfl), trivial⟩
    | cons b rest2 =>
      obtain ⟨hab, hw⟩ := isWalk_cons_cons g a b rest2 hv
      have ih2 := ih hw (fun lastv hl => hlast lastv (by
        rw [List.getLast?_cons_cons]
        exact hl))
      simp only [List.cons_append, isWalk, Bool.and_eq_true] at ih2 ⊢
      exact ⟨List.elem_iff.mpr hab, ih2⟩

/-- Soundness of the key loop: a reported victim is the maximum over a
self-closing walk, provided the one-level-deeper search is sound. -/
theorem recGoKeys_sound (g : WaitsFor)
    (recGoF : List Int → List Int → Option (Option Int))
    (hF : ∀ visited keys t, isWalk g visited = true → extendsOk g visited keys →
      recGoF visited keys = some (some t) → VictimFromLasso g t) :
    ∀ keys visited t, isWalk g visited = true → extendsOk g visited keys →
      recGoKeys g recGoF visited keys = some (some t) → VictimFromLasso g t := by
  intro keys
  induction keys with
  | nil =>
    intro visited t _ _ h
    simp [recGoKeys] at h
  | cons key rest ih =>
    intro visited t hwalk hext h
    simp only [recGoKeys] at h
    by_cases hmem : key ∈ visited
    · rw [if_pos hmem] at h
      simp only [Option.some.injEq] at h
      refine ⟨visited, key, ?_, hmem, h.symm⟩
      have hlastv : visited.getLast?.isSome := by
        cases hv : visited.getLast? with
        | none =>
          rw [List.getLast?_eq_none_iff] at hv
          rw [hv] at hmem
          cases hmem
        | some lastv => rfl
      apply isWalk_snoc g visited key hwalk
      intro lastv hl
      unfold extendsOk at hext
      rw [hl] at hext
      exact hext key (List.mem_cons_self _ _)
    · rw [if_neg hmem] at h
      cases hrec : recGoF (visited ++ [key]) (getEdges g key) with
      | none => rw [hrec] at h; cases h
      | some o =>
        cases o with
        | some t2 =>
          rw [hrec] at h
          simp only [Option.some.injEq] at h
          rw [← h]
          apply hF (visited ++ [key]) (getEdges g key) t2 ?_ ?_ hrec
          · apply isWalk_snoc g visited key hwalk
            intro lastv hl
            unfold extendsOk at hext
            rw [hl] at hext
            exact hext key (List.mem_cons_self _ _)
          · unfold extendsOk
            rw [List.getLast?_append]
            intro x hx
            exact hx
        | none =>
          rw [hrec] at h
          exact ih visited t hwalk (by
            unfold extendsOk at hext ⊢
            cases hv : visited.getLast? with
            | none => trivial
            | some lastv =>
              rw [hv] at hext
              intro x hx
              exact hext x (List.mem_cons_of_mem _ hx)) h

/-- Soundness of RecursiveGo: a reported victim is the maximum over a
walk of the graph that closes back onto itself. -/
theorem recGo_sound (g : WaitsFor) :
    ∀ fuel visited keys t, isWalk g visited = true → extendsOk g visited keys →
      recGo g fuel visited keys = some (some t) → VictimFromLasso g t := by
  intro fuel
  induction fuel with
  | zero =>
    intro visited keys t _ _ h
    cases h
  | succ f ih =>
    intro visited keys t hwalk hext h
    simp only [recGo] at h
    refine recGoKeys_sound g (recGo g f) ih (sortInts keys) visited t hwalk ?_ h
    unfold extendsOk at hext ⊢
    cases hv : visited.getLast? with
    | none => trivial
    | some lastv =>
      rw [hv] at hext
      intro x hx
      exact hext x ((mem_sortInts x keys).mp hx)

/-- Soundness at the top level: every victim HasCycle reports is the
maximum of a self-closing walk, hence at least every transaction of
the detected cycle. -/
theorem hasCycle_sound (g : WaitsFor) (fuel : Nat) (t : Int)
    (h : hasCycle g fuel = some (some t)) :
    VictimFromLasso g t ∧ ∀ v k, isWalk g (v ++ [k]) = true → k ∈ v →
      t = v.foldl max k → ∀ x, (x = k ∨ x ∈ v) → x ≤ t := by
  constructor
  · exact recGo_sound g fuel [] _ t rfl trivial h
  · intro v k _ _ ht x hx
    rw [ht]
    exact le_foldl_max v k x hx

/-- An entry of the graph contributes its key and targets to nodesOf. -/
theorem mem_nodesOf_of_entry (g : WaitsFor) (k : Int) (l : List Int) (h : (k, l) ∈ g) :
    k ∈ nodesOf g ∧ ∀ x ∈ l, x ∈ nodesOf g := by
  induction g with
  | nil => cases h
  | cons e rest ih =>
    rcases e with ⟨k2, l2⟩
    simp only [nodesOf, List.foldr] at *
    rcases List.mem_cons.mp h with heq | hmem
    · cases heq
      constructor
      · exact List.mem_cons_self _ _
      · intro x hx
        exact List.mem_cons_of_mem _ (List.mem_append.mpr (Or.inl hx))
    · obtain ⟨h1, h2⟩ := ih hmem
      constructor
      · exact List.mem_cons_of_mem _ (List.mem_append.mpr (Or.inr h1))
      · intro x hx
        exact List.mem_cons_of_mem _ (List.mem_append.mpr (Or.inr (h2 x hx)))

/-- The two ends of an edge are nodes of the graph. -/
theorem getEdges_mem_nodesOf (g : WaitsFor) (x y : Int) (h : y ∈ getEdges g x) :
    x ∈ nodesOf g ∧ y ∈ nodesOf g := by
  unfold getEdges at h
  cases hl : g.lookup x with
  | none =>
    rw [hl] at h
    cases h
  | some l =>
    rw [hl] at h
    simp only [Option.getD] at h
    obtain ⟨h1, h2⟩ := mem_nodesOf_of_entry g x l (lookup_mem g x l hl)
    exact ⟨h1, h2 y h⟩

/-- The keys HasCycle starts from are nodes of the graph. -/
theorem topKeys_mem_nodesOf (g : WaitsFor) (x : Int)
    (h : x ∈ (g.filter (fun p => ! p.2.isEmpty)).map Prod.fst) : x ∈ nodesOf g := by
  obtain ⟨p, hp, rfl⟩ := List.mem_map.mp h
  have hp2 := List.mem_of_mem_filter hp
  exact (mem_nodesOf_of_entry g p.1 p.2 (by simpa using hp2)).1

/-- A node with a non-empty wait list is among the keys HasCycle
starts from. -/
theorem mem_topKeys_of_edges (g : WaitsFor) (k : Int) (hne : getEdges g k ≠ []) :
    k ∈ (g.filter (fun p => ! p.2.isEmpty)).map Prod.fst := by
  unfold getEdges at hne
  cases hl : g.lookup k with
  | none =>
    rw [hl] at hne
    simp at hne
  | some l =>
    rw [hl] at hne
    simp only [Option.getD] at hne
    refine List.mem_map.mpr ⟨(k, l), ?_, rfl⟩
    refine List.mem_filter.mpr ⟨lookup_mem g k l hl, ?_⟩
    simpa using hne

/-- A list without duplicates drawn from w is no longer than w's
deduplication. -/
theorem nodup_subset_length_le (v w : List Int) (hnd : v.Nodup) (hsub : ∀ x ∈ v, x ∈ w) :
    v.length ≤ w.dedup.length := by
  have h1 : v.toFinset.card = v.length := List.toFinset_card_of_nodup hnd
  have h2 : v.toFinset ⊆ w.toFinset := by
    intro x hx
    rw [List.mem_toFinset] at hx ⊢
    exact hsub x hx
  calc v.length = v.toFinset.card := h1.symm
    _ ≤ w.toFinset.card := Finset.card_le_card h2
    _ = w.dedup.length := rfl

/-- With fuel exceeding the number of distinct graph nodes (less the
current path length), the search cannot exhaust its fuel: the visited
path never repeats, so the recursion depth is bounded by the node
count. -/
theorem recGo_adequate (g : WaitsFor) :
    ∀ fuel visited keys, visited.Nodup → (∀ x ∈ visited, x ∈ nodesOf g) →
      (∀ x ∈ keys, x ∈ nodesOf g) →
      (nodesOf g).dedup.length < fuel + visited.length →
      recGo g fuel visited keys ≠ none := by
  intro fuel
  induction fuel with
  | zero =>
    intro visited keys hnd hvsub _ hlt
    exfalso
    have := nodup_subset_length_le visited (nodesOf g) hnd hvsub
    omega
  | succ f ih =>
    intro visited keys hnd hvsub hksub hlt
    simp only [recGo]
    have hksub2 : ∀ x ∈ sortInts keys, x ∈ nodesOf g := fun x hx =>
      hksub x ((mem_sortInts x keys).mp hx)
    clear hksub
    generalize sortInts keys = ks at hksub2
    revert hksub2
    induction ks with
    | nil =>
      intro _
      simp [recGoKeys]
    | cons k0 rest ihk =>
      intro hksub2
      simp only [recGoKeys]
      by_cases hmem : k0 ∈ visited
      · rw [if_pos hmem]
        simp
      · rw [if_neg hmem]
        have hrecne : recGo g f (visited ++ [k0]) (getEdges g k0) ≠ none := by
          apply ih
          · exact List.Nodup.append hnd (List.nodup_singleton k0) (by
              intro x hx hx2
              simp only [List.mem_singleton] at hx2
              subst hx2
              exact hmem hx)
          · intro x hx
            rcases List.mem_append.mp hx with h1 | h1
            · exact hvsub x h1
            · simp only [List.mem_singleton] at h1
              rw [h1]
              exact hksub2 k0 (List.mem_cons_self _ _)
          · intro x hx
            exact (getEdges_mem_nodesOf g k0 x hx).2
          · simp only [List.length_append, List.length_singleton]
            omega
        cases hrec : recGo g f (visited ++ [k0]) (getEdges g k0) with
        | none => exact absurd hrec hrecne
        | some o =>
          cases o with
          | some t => simp
          | none => exact ihk (fun x hx => hksub2 x (List.mem_cons_of_mem _ hx))

/-- Exhaustiveness of the key loop: when a walk from one of the keys
closes a repeat against the visited path, the search cannot report
that no cycle exists. -/
theorem recGo_complete (g : WaitsFor) :
    ∀ fuel visited keys key p, visited.Nodup → key ∈ keys →
      isWalk g (key :: p) = true → ¬ (visited ++ key :: p).Nodup →
      p.length < fuel →
      recGo g fuel visited keys ≠ some none := by
  intro fuel
  induction fuel with
  | zero =>
    intro visited keys key p _ _ _ _ _
    simp [recGo]
  | succ f ih =>
    intro visited keys key p hnd hkey hwalk hdup hlen
    simp only [recGo]
    have hkey2 : key ∈ sortInts keys := (mem_sortInts key keys).mpr hkey
    generalize sortInts keys = ks at hkey2
    revert hkey2
    induction ks with
    | nil =>
      intro hkey2
      cases hkey2
    | cons k0 rest ihk =>
      intro hkey2
      simp only [recGoKeys]
      by_cases hmem : k0 ∈ visited
      · rw [if_pos hmem]
        simp
      · rw [if_neg hmem]
        cases hrec : recGo g f (visited ++ [k0]) (getEdges g k0) with
        | none => simp
        | some o =>
          cases o with
          | some t => simp
          | none =>
            rcases List.mem_cons.mp hkey2 with rfl | hkr
            · exfalso
              cases p with
              | nil =>
                apply hdup
                exact List.Nodup.append hnd (List.nodup_singleton key) (by
                  intro x hx hx2
                  simp only [List.mem_singleton] at hx2
                  subst hx2
                  exact hmem hx)
              | cons x p2 =>
                obtain ⟨hx_edge, hwalk2⟩ := isWalk_cons_cons g key x p2 hwalk
                refine ih (visited ++ [key]) (getEdges g key) x p2 ?_ hx_edge hwalk2 ?_ ?_ hrec
                · exact List.Nodup.append hnd (List.nodup_singleton key) (by
                    intro y hy hy2
                    simp only [List.mem_singleton] at hy2
                    subst hy2
                    exact hmem hy)
                · intro hc
                  apply hdup
                  rw [List.append_assoc] at hc
                  simpa using hc
                · simp only [List.length_cons] at hlen
                  omega
            · exact ihk hkr

/-- Exhaustiveness at the top level: a graph with a short-enough lasso
is never reported acyclic. -/
theorem hasCycle_complete (g : WaitsFor) (fuel : Nat) (v : List Int) (k : Int)
    (hw : isWalk g (v ++ [k]) = true) (hk : k ∈ v) (hfuel : v.length + 2 ≤ fuel) :
    hasCycle g fuel ≠ some none := by
  obtain ⟨v1, v2, rfl⟩ := List.append_of_mem hk
  have hw2 : isWalk g ((k :: v2) ++ [k]) = true := by
    apply isWalk_append_right g v1
    rw [← List.append_assoc]
    exact hw
  have hedges : getEdges g k ≠ [] := by
    intro hempty
    cases v2 with
    | nil =>
      obtain ⟨hkk, -⟩ := isWalk_cons_cons g k k [] hw2
      rw [hempty] at hkk
      cases hkk
    | cons x rest =>
      obtain ⟨hkx, -⟩ := isWalk_cons_cons g k x (rest ++ [k]) (by simpa using hw2)
      rw [hempty] at hkx
      cases hkx
  unfold hasCycle
  refine recGo_complete g fuel [] _ k (v2 ++ [k]) List.nodup_nil
    (mem_topKeys_of_edges g k hedges) ?_ ?_ ?_
  · simpa using hw2
  · intro hc
    simp only [List.nil_append, List.nodup_cons] at hc
    exact hc.1 (List.mem_append.mpr (Or.inr (List.mem_singleton.mpr rfl)))
  · have h1 : (v1 ++ k :: v2).length = v1.length + (v2.length + 1) := by simp
    have h2 : (v2 ++ [k]).length = v2.length + 1 := by simp
    omega

/-- Every entry of a walk that continues past it is a node of the
graph. -/
theorem walk_init_mem_nodesOf (g : WaitsFor) :
    ∀ v k, isWalk g (v ++ [k]) = true → ∀ x ∈ v, x ∈ nodesOf g := by
  intro v
  induction v with
  | nil =>
    intro k _ x hx
    cases hx
  | cons a rest ih =>
    intro k h x hx
    have hsplit : ∃ b l2, rest ++ [k] = b :: l2 := by
      cases rest with
      | nil => exact ⟨k, [], rfl⟩
      | cons r rs => exact ⟨r, rs ++ [k], rfl⟩
    obtain ⟨b, l2, heq⟩ := hsplit
    have h2 : isWalk g (a :: b :: l2) = true := by
      rw [← heq]
      simpa using h
    obtain ⟨hab, hw2⟩ := isWalk_cons_cons g a b l2 h2
    rcases List.mem_cons.mp hx with rfl | hxr
    · exact (getEdges_mem_nodesOf g x b hab).1
    · apply ih k ?_ x hxr
      apply isWalk_tail g a
      simpa using h

/-- The reported victim names a node of the graph. -/
theorem victim_mem_nodesOf (g : WaitsFor) (t : Int) (h : VictimFromLasso g t) :
    t ∈ nodesOf g := by
  obtain ⟨v, k, hw, hk, rfl⟩ := h
  have hv : ∀ x ∈ v, x ∈ nodesOf g := walk_init_mem_nodesOf g v k hw
  rcases foldl_max_mem v k with heq | hmem
  · rw [heq]
    exact hv k hk
  · exact hv _ hmem

/-- A node of the cleaned-up graph is a node of the original graph and
differs from the removed victim (using that wait lists have no
duplicates). -/
theorem nodesOf_eraseVictim (g : WaitsFor) (hwf : graphWF g) (t x : Int)
    (h : x ∈ nodesOf (eraseVictim g t)) : x ∈ nodesOf g ∧ x ≠ t := by
  obtain ⟨-, hedges⟩ := hwf
  induction g with
  | nil => cases h
  | cons e rest ih =>
    rcases e with ⟨k2, l2⟩
    have hrest : ∀ p ∈ rest, (p.2 : List Int).Nodup :=
      fun p hp => hedges p (List.mem_cons_of_mem _ hp)
    by_cases hk : k2 = t
    · have hfil : eraseVictim ((k2, l2) :: rest) t = eraseVictim rest t := by
        unfold eraseVictim
        rw [List.filter_cons_of_neg]
        simp [hk]
      rw [hfil] at h
      obtain ⟨h1, h2⟩ := ih h hrest
      exact ⟨List.mem_cons_of_mem _ (List.mem_append.mpr (Or.inr h1)), h2⟩
    · have hfil : eraseVictim ((k2, l2) :: rest) t =
          (k2, l2.erase t) :: eraseVictim rest t := by
        unfold eraseVictim
        rw [List.filter_cons_of_pos]
        · rfl
        · simpa using hk
      rw [hfil] at h
      have hne : nodesOf ((k2, l2.erase t) :: eraseVictim rest t) =
          k2 :: (l2.erase t ++ nodesOf (eraseVictim rest t)) := rfl
      rw [hne] at h
      rcases List.mem_cons.mp h with rfl | hrest2
      · exact ⟨List.mem_cons_self _ _, hk⟩
      · rcases List.mem_append.mp hrest2 with hin | hin
        · have hl2 : (l2 : List Int).Nodup := hedges (k2, l2) (List.mem_cons_self _ _)
          have h3 := (List.Nodup.mem_erase_iff hl2).mp hin
          exact ⟨List.mem_cons_of_mem _ (List.mem_append.mpr (Or.inl h3.2)), h3.1⟩
        · obtain ⟨h1, h2⟩ := ih hin hrest
          exact ⟨List.mem_cons_of_mem _ (List.mem_append.mpr (Or.inr h1)), h2⟩

/-- eraseVictim preserves the graph well-formedness. -/
theorem graphWF_eraseVictim (g : WaitsFor) (t : Int) (hwf : graphWF g) :
    graphWF (eraseVictim g t) := by
  obtain ⟨hkeys, hedges⟩ := hwf
  constructor
  · unfold eraseVictim
    have h1 : (((g.filter (fun p => p.1 ≠ t)).map
        (fun p => (p.1, p.2.erase t))).map Prod.fst) =
        (g.filter (fun p => p.1 ≠ t)).map Prod.fst := by
      rw [List.map_map]
      rfl
    rw [h1]
    have h2 : ((g.filter (fun p => p.1 ≠ t)).map Prod.fst).Sublist (g.map Prod.fst) :=
      List.Sublist.map Prod.fst (List.filter_sublist g)
    exact List.Nodup.sublist h2 hkeys
  · intro p hp
    unfold eraseVictim at hp
    obtain ⟨p2, hp2, rfl⟩ := List.mem_map.mp hp
    exact List.Nodup.erase t (hedges p2 (List.mem_of_mem_filter hp2))

/-- The removed victim occurs nowhere in the cleaned-up graph. -/
theorem nodeAbsent_eraseVictim_self (g : WaitsFor) (t : Int) (hwf : graphWF g) :
    nodeAbsent (eraseVictim g t) t = true := by
  obtain ⟨-, hedges⟩ := hwf
  unfold nodeAbsent
  rw [List.all_eq_true]
  intro p hp
  unfold eraseVictim at hp
  obtain ⟨p2, hp2, rfl⟩ := List.mem_map.mp hp
  have hne : p2.1 ≠ t := by
    have := List.of_mem_filter hp2
    simpa using this
  have hnodup : (p2.2 : List Int).Nodup := hedges p2 (List.mem_of_mem_filter hp2)
  simp only [Bool.and_eq_true, bne_iff_ne, ne_eq, Bool.not_eq_true']
  constructor
  · exact hne
  · rw [← Bool.not_eq_true, List.elem_iff]
    intro hmem
    exact absurd ((List.Nodup.mem_erase_iff hnodup).mp hmem).1 (by simp)

/-- A transaction absent from the graph stays absent after a victim is
removed. -/
theorem nodeAbsent_eraseVictim_mono (g : WaitsFor) (t x : Int)
    (h : nodeAbsent g x = true) : nodeAbsent (eraseVictim g t) x = true := by
  unfold nodeAbsent at h ⊢
  rw [List.all_eq_true] at h ⊢
  intro p hp
  unfold eraseVictim at hp
  obtain ⟨p2, hp2, rfl⟩ := List.mem_map.mp hp
  have h2 := h p2 (List.mem_of_mem_filter hp2)
  simp only [Bool.and_eq_true, bne_iff_ne, ne_eq, Bool.not_eq_true'] at h2 ⊢
  constructor
  · exact h2.1
  · rw [← Bool.not_eq_true, List.elem_iff] at h2 ⊢
    intro hmem
    exact h2.2 (List.mem_of_mem_erase hmem)

/-- The invariants the detection loop maintains: on normal exit the
search reports no cycle on the final graph, well-formedness is kept,
ABORTED states are never reverted, every victim of the round list ends
ABORTED and absent from the final graph, and the node set shrinks. -/
theorem detectRounds_info (fd : Nat) : ∀ n g st g2 st2 victims,
    graphWF g →
    detectRounds fd n g st = some (g2, st2, victims) →
    hasCycle g2 fd = some none ∧
    graphWF g2 ∧
    (∀ x, st x = TransactionState.ABORTED → st2 x = TransactionState.ABORTED) ∧
    (∀ x, nodeAbsent g x = true → nodeAbsent g2 x = true) ∧
    (∀ v ∈ victims, st2 v = TransactionState.ABORTED ∧ nodeAbsent g2 v = true) ∧
    (∀ x ∈ nodesOf g2, x ∈ nodesOf g) := by
  intro n
  induction n with
  | zero =>
    intro g st g2 st2 victims _ h
    cases h
  | succ m ih =>
    intro g st g2 st2 victims hwf h
    simp only [detectRounds] at h
    split at h
    · cases h
    · rename_i hcyc
      cases h
      refine ⟨hcyc, hwf, fun x hx => hx, fun x hx => hx, ?_, fun x hx => hx⟩
      intro v hv
      cases hv
    · rename_i t hcyc
      split at h
      · cases h
      · rename_i g3 st3 vs hrec
        cases h
        obtain ⟨ic, iwf, ipres, iabs, ivict, inodes⟩ :=
          ih (eraseVictim g t) _ _ _ _ (graphWF_eraseVictim g t hwf) hrec
        refine ⟨ic, iwf, ?_, ?_, ?_, ?_⟩
        · intro x hx
          apply ipres
          by_cases hxt : x = t <;> simp [hxt, hx]
        · intro x hx
          exact iabs x (nodeAbsent_eraseVictim_mono g t x hx)
        · intro v hv
          rcases List.mem_cons.mp hv with rfl | hv2
          · refine ⟨ipres v (by simp), ?_⟩
            exact iabs v (nodeAbsent_eraseVictim_self g v hwf)
          · exact ivict v hv2
        · intro x hx
          exact (nodesOf_eraseVictim g hwf t x (inodes x hx)).1

/-- With DFS fuel above the distinct-node count and at least one more
round than there are distinct nodes, the detection loop terminates:
every round removes a node of the graph. -/
theorem detectRounds_terminates (fd : Nat) : ∀ m g st,
    graphWF g → (nodesOf g).dedup.length + 2 ≤ fd →
    (nodesOf g).toFinset.card < m →
    detectRounds fd m g st ≠ none := by
  intro m
  induction m with
  | zero =>
    intro g st _ _ hcard
    omega
  | succ m2 ih =>
    intro g st hwf hfd hcard
    simp only [detectRounds]
    have hadq : hasCycle g fd ≠ none := by
      apply recGo_adequate g fd [] _ List.nodup_nil (by intro x hx; cases hx)
        (fun x hx => topKeys_mem_nodesOf g x hx)
      simp only [List.length_nil]
      omega
    split
    · rename_i hcyc
      exact absurd hcyc hadq
    · simp
    · rename_i t hcyc
      have htm : t ∈ nodesOf g := by
        apply victim_mem_nodesOf g t
        exact recGo_sound g fd [] _ t rfl trivial hcyc
      have hsub : ∀ x ∈ nodesOf (eraseVictim g t), x ∈ nodesOf g ∧ x ≠ t :=
        fun x hx => nodesOf_eraseVictim g hwf t x hx
      have hcard2 : (nodesOf (eraseVictim g t)).toFinset.card < m2 := by
        have hss : (nodesOf (eraseVictim g t)).toFinset ⊆
            (nodesOf g).toFinset.erase t := by
          intro x hx
          rw [List.mem_toFinset] at hx
          obtain ⟨h1, h2⟩ := hsub x hx
          exact Finset.mem_erase.mpr ⟨h2, List.mem_toFinset.mpr h1⟩
        have := Finset.card_le_card hss
        have herase : ((nodesOf g).toFinset.erase t).card =
            (nodesOf g).toFinset.card - 1 :=
          Finset.card_erase_of_mem (List.mem_toFinset.mpr htm)
        have hpos : 0 < (nodesOf g).toFinset.card :=
          Finset.card_pos.mpr ⟨t, List.mem_toFinset.mpr htm⟩
        omega
      have hfd2 : (nodesOf (eraseVictim g t)).dedup.length + 2 ≤ fd := by
        have : (nodesOf (eraseVictim g t)).dedup.length ≤ (nodesOf g).dedup.length := by
          apply nodup_subset_length_le _ _ (List.nodup_dedup _)
          intro x hx
          exact (hsub x ((List.mem_dedup).mp hx)).1
        omega
      have hne := ih (eraseVictim g t)
        (fun x => if x = t then TransactionState.ABORTED else st x)
        (graphWF_eraseVictim g t hwf) hfd2 hcard2
      split
      · rename_i hrec
        exact absurd hrec hne
      · simp

/-- A walk started inside a successor-closed set stays inside it. -/
theorem walk_closed (g : WaitsFor) (S : List Int)
    (hS : ∀ x ∈ S, ∀ y ∈ getEdges g x, y ∈ S) :
    ∀ p a, isWalk g (a :: p) = true → (∀ y ∈ getEdges g a, y ∈ S) →
      ∀ x ∈ p, x ∈ S := by
  intro p
  induction p with
  | nil =>
    intro a _ _ x hx
    cases hx
  | cons b p2 ih =>
    intro a hw ha x hx
    obtain ⟨hab, hw2⟩ := isWalk_cons_cons g a b p2 hw
    have hb : b ∈ S := ha b hab
    rcases List.mem_cons.mp hx with rfl | hx2
    · exact hb
    · exact ih b hw2 (hS b hb) x hx2

/-- In the C3 scenario graph, no walk leaving transaction 9 ever
returns to it: 9 is on no cycle. -/
theorem scenario_no_cycle_through_9 :
    ∀ p : List Int, isWalk waitsForScenario (9 :: p) = true → (9 : Int) ∉ p := by
  intro p hw h9
  have h := walk_closed waitsForScenario [2, 3] (by decide) p 9 hw (by decide) 9 h9
  simp at h

/-- C3 counterexample: on the concrete graph the search reports victim
9, although the graph's only cycle is 2 → 3 → 2 (the listed wait lists
show that every walk leaving 9 stays inside {2, 3}, as
scenario_no_cycle_through_9 makes formal), so the youngest cycle
participant is 3 and the reported victim 9 is not a cycle participant
at all: it is merely the largest id on the DFS path 1, 9, 2, 3 that
reached the cycle. -/
theorem C3_victim_not_youngest_on_cycle :
    hasCycle waitsForScenario 8 = some (some 9) ∧
    isWalk waitsForScenario [2, 3, 2] = true ∧
    getEdges waitsForScenario 9 = [2] ∧
    getEdges waitsForScenario 2 = [3] ∧
    getEdges waitsForScenario 3 = [2] ∧
    (3 : Int) < 9 := by
  exact ⟨by decide, by decide, by decide, by decide, by decide, by decide⟩

/-- C3 (amended): for a well-formed waits-for graph and adequate DFS
fuel, every victim HasCycle reports is the maximum txn id over a
self-closing walk (the DFS path that reached the cycle), hence an
upper bound for every transaction on the detected cycle; the detection
loop terminates within one round per graph node; and on normal exit
every victim has state ABORTED and is absent from the final graph,
which contains no cycle. -/
theorem C3_cycle_detection_behavior (g : WaitsFor) (st : Int → TransactionState)
    (fd : Nat) (hwf : graphWF g) (hfd : (nodesOf g).dedup.length + 2 ≤ fd) :
    (∀ t, hasCycle g fd = some (some t) →
      ∃ v k, isWalk g (v ++ [k]) = true ∧ k ∈ v ∧ t = v.foldl max k ∧
        ∀ x, (x = k ∨ x ∈ v) → x ≤ t) ∧
    detectRounds fd ((nodesOf g).toFinset.card + 1) g st ≠ none ∧
    (∀ n g2 st2 victims, detectRounds fd n g st = some (g2, st2, victims) →
      (∀ v ∈ victims, st2 v = TransactionState.ABORTED ∧ nodeAbsent g2 v = true) ∧
      (∀ v k, (v : List Int).Nodup → isWalk g2 (v ++ [k]) = true → k ∉ v)) := by
  refine ⟨?_, ?_, ?_⟩
  · intro t ht
    obtain ⟨v, k, hwk, hmem, heq⟩ := recGo_sound g fd [] _ t rfl trivial ht
    refine ⟨v, k, hwk, hmem, heq, ?_⟩
    intro x hx
    rw [heq]
    exact le_foldl_max v k x hx
  · apply detectRounds_terminates fd _ g st hwf hfd
    omega
  · intro n g2 st2 victims h
    obtain ⟨ic, iwf, -, -, ivict, inodes⟩ := detectRounds_info fd n g st g2 st2 victims hwf h
    refine ⟨ivict, ?_⟩
    intro v k hnd hwk hkv
    apply hasCycle_complete g2 fd v k hwk hkv ?_ ic
    have hsubs : ∀ x ∈ v, x ∈ nodesOf g :=
      fun x hx => inodes x (walk_init_mem_nodesOf g2 v k hwk x hx)
    have := nodup_subset_length_le v (nodesOf g) hnd hsubs
    omega

/-- C3 witness: the theorem applies to the scenario graph with DFS
fuel 8 and enough rounds; the reported victim 9 is the maximum of a
self-closing walk and the loop terminates. -/
theorem C3_cycle_detection_witness :
    VictimFromLasso waitsForScenario 9 ∧
    detectRounds 8 ((nodesOf waitsForScenario).toFinset.card + 1) waitsForScenario
      (fun _ => TransactionState.GROWING) ≠ none := by
  have h := C3_cycle_detection_behavior waitsForScenario
    (fun _ => TransactionState.GROWING) 8
    (by
      constructor
      · decide
      · decide)
    (by decide)
  obtain ⟨h1, h2, -⟩ := h
  obtain ⟨v, k, hwk, hmem, heq, -⟩ := h1 9 (by decide)
  exact ⟨⟨v, k, hwk, hmem, heq⟩, h2⟩

/-- C1: in the state reached by the recorded access sequence (K = 2,
frame 1 accessed at stamps 0, 3, 4, frame 2 at stamps 1, 2, both
evictable, so neither has backward K-distance +inf), the claimed policy
selects frame 2, whose K-th most recent access (stamp 1) is older than
frame 1's (stamp 3); the code's Evict nevertheless returns frame 1,
because it measures the distance from the front of the untrimmed
history, i.e. from the oldest access ever recorded. -/
theorem C1_evict_contradicts_kth_distance_policy :
    (lruScenarioC1 >>= fun r => r.Evict.map Prod.fst) = some 1 ∧
    (lruScenarioC1.map fun r =>
      r.node_store.all fun e => e.2.is_evictable && decide (r.k ≤ e.2.k)) = some true ∧
    (lruScenarioC1 >>= fun r =>
      (r.node_store.lookup 2).bind fun n => specKthMostRecentStamp n r.k) = some 1 ∧
    (lruScenarioC1 >>= fun r =>
      (r.node_store.lookup 1).bind fun n => specKthMostRecentStamp n r.k) = some 3 := by
  exact ⟨rfl, rfl, rfl, rfl⟩

/-- C6: with K = 1, after two RecordAccess calls on frame 0 the node's
history holds both timestamps (length 2 exceeds K = 1): RecordAccess
never drops the oldest entry, contrary to the claim that a node's
history retains at most K timestamps. -/
theorem C6_recordAccess_retains_more_than_k :
    (lruScenarioC6.map fun r => r.k) = some 1 ∧
    (lruScenarioC6 >>= fun r =>
      (r.node_store.lookup 0).map fun n => n.history) = some [0, 1] := by
  exact ⟨rfl, rfl⟩

/-- cmp does not answer 1 exactly when the left key is ≤ the right. -/
theorem cmp_ne_one_iff (a b : Int) : cmp a b ≠ 1 ↔ a ≤ b := by
  unfold cmp
  by_cases h1 : a < b
  · rw [if_pos h1]; simp; omega
  · rw [if_neg h1]
    by_cases h2 : a = b
    · rw [if_pos h2]; simp; omega
    · rw [if_neg h2]; simp; omega

/-- cmp answers 1 exactly when the right key is smaller. -/
theorem cmp_eq_one_iff (a b : Int) : cmp a b = 1 ↔ b < a := by
  unfold cmp
  by_cases h1 : a < b
  · rw [if_pos h1]; constructor <;> intro h <;> omega
  · rw [if_neg h1]
    by_cases h2 : a = b
    · rw [if_pos h2]; constructor <;> intro h <;> omega
    · rw [if_neg h2]; constructor <;> intro h <;> omega

/-- cmp answers 0 exactly on equal keys. -/
theorem cmp_eq_zero_iff (a b : Int) : cmp a b = 0 ↔ a = b := by
  unfold cmp
  by_cases h1 : a < b
  · rw [if_pos h1]; constructor <;> intro h <;> omega
  · rw [if_neg h1]
    by_cases h2 : a = b
    · rw [if_pos h2]; simp [h2]
    · rw [if_neg h2]; constructor <;> intro h <;> [omega; exact absurd h h2]

/-- cmp answers a negative exactly when the left key is smaller. -/
theorem cmp_lt_zero_iff (a b : Int) : cmp a b < 0 ↔ a < b := by
  unfold cmp
  by_cases h1 : a < b
  · rw [if_pos h1]; constructor <;> intro h <;> [exact h1; omega]
  · rw [if_neg h1]
    by_cases h2 : a = b
    · rw [if_pos h2]; constructor <;> intro h <;> omega
    · rw [if_neg h2]; constructor <;> intro h <;> omega

/-- The internal GetSlotNum loop answers -1 or a slot within
[0, size-1], for any start ≥ 1 and stop ≤ size-1. -/
theorem getSlotLoopInternal_range (key : Int) (node : InternalNode) :
    ∀ fuel (start stop : Int), 1 ≤ start → stop ≤ (node.size : Int) - 1 →
      getSlotLoopInternal key node fuel start stop = -1 ∨
      (0 ≤ getSlotLoopInternal key node fuel start stop ∧
       getSlotLoopInternal key node fuel start stop ≤ (node.size : Int) - 1) := by
  intro fuel
  induction fuel with
  | zero => intro start stop h1 h2; left; rfl
  | succ n ih =>
    intro start stop h1 h2
    by_cases hle : start ≤ stop
    · have hdiv1 : start ≤ (start + stop) / 2 := by omega
      have hdiv2 : (start + stop) / 2 ≤ stop := by omega
      simp only [getSlotLoopInternal, if_pos hle]
      split
      · split
        · rename_i heq; right; omega
        · split
          · rename_i hne hge; right; omega
          · exact ih start ((start + stop) / 2 - 1) h1 (by omega)
      · split
        · rename_i heq; right; omega
        · split
          · rename_i hne hlt; right; omega
          · exact ih ((start + stop) / 2 + 1) stop (by omega) h2
    · exact Or.inl (by simp [getSlotLoopInternal, hle])

/-- GetSlotNum on an internal page answers -1 or a slot within
[0, size-1]. -/
theorem GetSlotNumInternal_range (key : Int) (node : InternalNode) :
    GetSlotNumInternal key node = -1 ∨
    (0 ≤ GetSlotNumInternal key node ∧
     GetSlotNumInternal key node ≤ (node.size : Int) - 1) :=
  getSlotLoopInternal_range key node (node.size + 2) 1 ((node.size : Int) - 1)
    le_rfl (by omega)

/-- A successful GetValue descent ends at a leaf page of the store. -/
theorem findLeafGet_leaf (t : BPlusTree) (key : Int) :
    ∀ fuel pid lid, findLeafGet t key fuel pid = some (some lid) →
      ∃ l, t.store lid = some (BPTNode.leaf l) := by
  intro fuel
  induction fuel with
  | zero => intro pid lid h; exact absurd h (by simp [findLeafGet])
  | succ n ih =>
    intro pid lid h
    cases hs : t.store pid with
    | none => simp [findLeafGet, hs] at h
    | some node =>
      cases node with
      | leaf l =>
        simp only [findLeafGet, hs, Option.some.injEq] at h
        exact h ▸ ⟨l, hs⟩
      | internal inode =>
        simp only [findLeafGet, hs] at h
        by_cases hslot : GetSlotNumInternal key inode = -1
        · rw [if_pos hslot] at h; simp at h
        · rw [if_neg hslot] at h; exact ih _ _ h

/-- A successful GetValue descent over a subtree of height h needs
fuel at least h+1. -/
theorem findLeafGet_height_le (t : BPlusTree) (key : Int) :
    ∀ h fuel pid lid, subtreeWF t h pid →
      findLeafGet t key fuel pid = some (some lid) → h + 1 ≤ fuel := by
  intro h
  induction h with
  | zero =>
    intro fuel pid lid _ hg
    cases fuel with
    | zero => exact absurd hg (by simp [findLeafGet])
    | succ f => omega
  | succ n ih =>
    intro fuel pid lid hwf hg
    obtain ⟨node, hs, _, hch⟩ := hwf
    cases fuel with
    | zero => exact absurd hg (by simp [findLeafGet])
    | succ f =>
      simp only [findLeafGet, hs] at hg
      by_cases hslot : GetSlotNumInternal key node = -1
      · rw [if_pos hslot] at hg; simp at hg
      · rw [if_neg hslot] at hg
        have hrange := (GetSlotNumInternal_range key node).resolve_left hslot
        have hv : node.ValueAt (GetSlotNumInternal key node) =
            node.children (GetSlotNumInternal key node).toNat := by
          unfold InternalNode.ValueAt
          rw [if_pos ⟨hrange.1, by omega⟩]
        have hcw : subtreeWF t n (node.ValueAt (GetSlotNumInternal key node)) := by
          rw [hv]; exact hch _ (by omega)
        have := ih f _ lid hcw hg
        omega

/-- Over a well-formed subtree, the optimistic crab descent of Insert
reaches the same leaf as the GetValue descent, given fuel above the
height. -/
theorem findLeafCrab_follows (t : BPlusTree) (key : Int) :
    ∀ h fuelc fuelg pid inode lid,
      subtreeWF t (h + 1) pid → t.store pid = some (BPTNode.internal inode) →
      findLeafGet t key fuelg pid = some (some lid) → h + 1 ≤ fuelc →
      findLeafCrab t key fuelc inode = some lid := by
  intro h
  induction h with
  | zero =>
    intro fuelc fuelg pid inode lid hwf hs hg hf
    obtain ⟨node, hs2, hvice, hch⟩ := hwf
    rw [hs] at hs2
    injection hs2 with hs3
    injection hs3 with hs4
    subst hs4
    cases fuelg with
    | zero => exact absurd hg (by simp [findLeafGet])
    | succ fg =>
      simp only [findLeafGet, hs] at hg
      by_cases hslot : GetSlotNumInternal key inode = -1
      · rw [if_pos hslot] at hg; simp at hg
      · rw [if_neg hslot] at hg
        have hrange := (GetSlotNumInternal_range key inode).resolve_left hslot
        have hv : inode.ValueAt (GetSlotNumInternal key inode) =
            inode.children (GetSlotNumInternal key inode).toNat := by
          unfold InternalNode.ValueAt
          rw [if_pos ⟨hrange.1, by omega⟩]
        have hcl : subtreeWF t 0 (inode.ValueAt (GetSlotNumInternal key inode)) := by
          rw [hv]; exact hch _ (by omega)
        obtain ⟨l, hl⟩ := hcl
        cases fg with
        | zero => exact absurd hg (by simp [findLeafGet])
        | succ fg2 =>
          simp only [findLeafGet, hl, Option.some.injEq] at hg
          cases fuelc with
          | zero => omega
          | succ fc =>
            have hvk : ¬ cmp (inode.KeyAt 0) 1 ≠ 0 := by
              simp only [ne_eq, not_not]
              exact hvice.mpr rfl
            simp only [findLeafCrab, if_neg hvk, Option.some.injEq]
            exact hg
  | succ n ih =>
    intro fuelc fuelg pid inode lid hwf hs hg hf
    obtain ⟨node, hs2, hvice, hch⟩ := hwf
    rw [hs] at hs2
    injection hs2 with hs3
    injection hs3 with hs4
    subst hs4
    cases fuelg with
    | zero => exact absurd hg (by simp [findLeafGet])
    | succ fg =>
      simp only [findLeafGet, hs] at hg
      by_cases hslot : GetSlotNumInternal key inode = -1
      · rw [if_pos hslot] at hg; simp at hg
      · rw [if_neg hslot] at hg
        have hrange := (GetSlotNumInternal_range key inode).resolve_left hslot
        have hv : inode.ValueAt (GetSlotNumInternal key inode) =
            inode.children (GetSlotNumInternal key inode).toNat := by
          unfold InternalNode.ValueAt
          rw [if_pos ⟨hrange.1, by omega⟩]
        have hcw : subtreeWF t (n + 1) (inode.ValueAt (GetSlotNumInternal key inode)) := by
          rw [hv]; exact hch _ (by omega)
        obtain ⟨node2, hl2, hrest⟩ := hcw
        cases fuelc with
        | zero => omega
        | succ fc =>
          have hvk : cmp (inode.KeyAt 0) 1 ≠ 0 := by
            intro hc
            exact absurd (hvice.mp hc) (by omega)
          simp only [findLeafCrab, if_pos hvk, hl2]
          exact ih fc fg _ node2 lid ⟨node2, hl2, hrest⟩ hl2 hg (by omega)

/-- C5: on a structurally well-formed tree, inserting a key that
GetValue already finds makes Insert return false with the tree object
unchanged (so every later lookup is unchanged): the duplicate check of
the optimistic phase fires at the same leaf that GetValue reached,
before any mutation. -/
theorem C5_duplicate_insert_is_noop (t : BPlusTree) (h fuel : Nat) (key : Int)
    (v val : Rid)
    (hwf : t.root_page_id ≠ INVALID_PAGE_ID → subtreeWF t h t.root_page_id)
    (hfound : getValue t fuel key = some (some val)) :
    insert t fuel key v = some (false, t) := by
  unfold getValue at hfound
  by_cases hroot : t.root_page_id = INVALID_PAGE_ID
  · rw [if_pos hroot] at hfound; simp at hfound
  · rw [if_neg hroot] at hfound
    have hwf2 := hwf hroot
    cases hF : findLeafGet t key fuel t.root_page_id with
    | none => rw [hF] at hfound; simp at hfound
    | some o =>
      cases o with
      | none => rw [hF] at hfound; simp at hfound
      | some lid =>
        rw [hF] at hfound
        obtain ⟨l, hl⟩ := findLeafGet_leaf t key fuel _ lid hF
        simp only [hl] at hfound
        by_cases hsl : GetSlotNumLeaf key l ≠ -1
        · unfold insert
          rw [if_pos hroot]
          cases fuel with
          | zero => exact absurd hF (by simp [findLeafGet])
          | succ f =>
            cases hrs : t.store t.root_page_id with
            | none => simp [findLeafGet, hrs] at hF
            | some rnode =>
              cases rnode with
              | leaf rl =>
                simp only [findLeafGet, hrs, Option.some.injEq] at hF
                simp only [hrs]
                unfold insertAtCrabLeaf
                rw [hF] at hrs
                rw [hrs] at hl
                injection hl with hl2
                injection hl2 with hl3
                subst hl3
                simp only [hF, hrs]
                rw [if_pos hsl]
              | internal inode =>
                cases h with
                | zero =>
                  obtain ⟨l0, hl0⟩ := hwf2
                  rw [hrs] at hl0
                  simp at hl0
                | succ n =>
                  have hcrab := findLeafCrab_follows t key n (f + 1) (f + 1) _ inode lid
                    hwf2 hrs hF (by
                      have := findLeafGet_height_le t key (n + 1) (f + 1) _ lid hwf2 hF
                      omega)
                  simp only [hrs, hcrab]
                  unfold insertAtCrabLeaf
                  simp only [hl]
                  rw [if_pos hsl]
        · rw [if_neg hsl] at hfound; simp at hfound

/-- Witness: on the concrete two-level tree, GetValue finds key 3 and
the duplicate Insert of 3 returns false with the tree unchanged. -/
theorem C5_duplicate_insert_witness :
    getValue c5Tree 10 3 = some (some (3, 3)) ∧
    insert c5Tree 10 3 (9, 9) = some (false, c5Tree) := by
  refine ⟨by decide, ?_⟩
  refine C5_duplicate_insert_is_noop c5Tree 1 10 3 (9, 9) (3, 3) (fun _ => ?_) (by decide)
  refine ⟨_, rfl, by decide, ?_⟩
  intro j hj
  have hj2 : j < 2 := hj
  rcases j with _ | _ | j
  · exact ⟨_, rfl⟩
  · exact ⟨_, rfl⟩
  · exact absurd hj2 (by omega)

/-- C8: counterexample — on the tree built by Inserting keys 1 and 3
(leaf_max_size 3), Begin(2) yields the iterator at page 1 slot 0,
whose key is 1 < 2, not the first entry with key ≥ 2 (key 3 at slot
1): BinaryFind positions Begin at the last key ≤ the target, not the
first key ≥ it. -/
theorem C8_begin_not_first_geq :
    (applyOps 20 (emptyTree 3 3) [TreeOp.ins 1 (1, 1), TreeOp.ins 3 (3, 3)]).isSome = true ∧
    beginKey c8Tree 10 2 = some (BeginOutcome.it 1 0) ∧
    leafKeyAtPage c8Tree 1 0 = 1 ∧ leafKeyAtPage c8Tree 1 1 = 3 ∧
    leafSizeAtPage c8Tree 1 = 2 ∧ c8Tree.root_page_id = 1 := by decide

/-- With the interval already empty the BinaryFind loop returns its
bounds unchanged. -/
theorem binaryFindLoop_exit (get : Int → Int) (k : Int) :
    ∀ fuel (lo r : Int), ¬ lo < r → binaryFindLoop get k fuel lo r = (lo, r) := by
  intro fuel lo r h
  cases fuel with
  | zero => rfl
  | succ n => simp only [binaryFindLoop, if_neg h]

/-- The invariant of the BinaryFind loop on a sorted leaf: the final
right bound stays within [0, size-1], every slot beyond it holds a key
above the target, and it is 0 or holds a key ≤ the target. -/
theorem binaryFindLoop_leaf_inv (l : LeafNode) (k : Int) (hs : sortedLeaf l) :
    ∀ (fuel : Nat) (lo r : Int), 0 ≤ lo → lo ≤ r → r ≤ (l.size : Int) - 1 →
      r - lo < (fuel : Int) →
      (∀ j : Nat, r < (j : Int) → j < l.size → k < l.keys j) →
      (lo = 0 ∨ l.keys lo.toNat ≤ k) →
      0 ≤ (binaryFindLoop (fun i => l.KeyAt i) k fuel lo r).2 ∧
      (binaryFindLoop (fun i => l.KeyAt i) k fuel lo r).2 ≤ (l.size : Int) - 1 ∧
      (∀ j : Nat, (binaryFindLoop (fun i => l.KeyAt i) k fuel lo r).2 < (j : Int) →
        j < l.size → k < l.keys j) ∧
      ((binaryFindLoop (fun i => l.KeyAt i) k fuel lo r).2 = 0 ∨
        l.keys (binaryFindLoop (fun i => l.KeyAt i) k fuel lo r).2.toNat ≤ k) := by
  intro fuel
  induction fuel with
  | zero =>
    intro lo r h0 hlr hrs hfuel hA hC
    exact absurd hfuel (by omega)
  | succ n ih =>
    intro lo r h0 hlr hrs hfuel hA hC
    by_cases hlt : lo < r
    · have hm1 : lo + 1 ≤ (lo + r + 1) / 2 := by omega
      have hm2 : (lo + r + 1) / 2 ≤ r := by omega
      simp only [binaryFindLoop, if_pos hlt]
      by_cases hc : cmp (l.KeyAt ((lo + r + 1) / 2)) k ≠ 1
      · rw [if_pos hc]
        refine ih ((lo + r + 1) / 2) r (by omega) (by omega) hrs (by omega) hA
          (Or.inr ((cmp_ne_one_iff _ _).mp hc))
      · rw [if_neg hc]
        have hgt : k < l.keys ((lo + r + 1) / 2).toNat :=
          (cmp_eq_one_iff (l.KeyAt ((lo + r + 1) / 2)) k).mp (not_not.mp hc)
        refine ih lo ((lo + r + 1) / 2 - 1) h0 (by omega) (by omega) (by omega) ?_ hC
        intro j hj1 hj2
        by_cases hjr : r < (j : Int)
        · exact hA j hjr hj2
        · have hjge : ((lo + r + 1) / 2).toNat ≤ j := by omega
          rcases Nat.eq_or_lt_of_le hjge with he | hlt2
          · rw [← he]; exact hgt
          · exact lt_trans hgt (hs _ j hlt2 hj2)
    · have hler : lo = r := by omega
      subst hler
      rw [binaryFindLoop_exit _ _ _ _ _ hlt]
      exact ⟨by omega, hrs, hA, hC⟩

/-- BinaryFind on a sorted leaf: -1 exactly reports that every key
exceeds the target, and otherwise the answer is the greatest slot
whose key is ≤ the target. -/
theorem BinaryFindLeaf_spec (l : LeafNode) (k : Int) (hs : sortedLeaf l) :
    (BinaryFindLeaf l k = -1 → ∀ j : Nat, j < l.size → k < l.keys j) ∧
    (BinaryFindLeaf l k ≠ -1 →
      0 ≤ BinaryFindLeaf l k ∧ (BinaryFindLeaf l k).toNat < l.size ∧
      l.keys (BinaryFindLeaf l k).toNat ≤ k ∧
      ∀ j : Nat, j < l.size → l.keys j ≤ k → (j : Int) ≤ BinaryFindLeaf l k) := by
  by_cases hsz : l.size = 0
  · have hnl : ¬ (0 : Int) < (l.size : Int) - 1 := by omega
    have hval : BinaryFindLeaf l k = -1 := by
      simp only [BinaryFindLeaf, binaryFindLoop_exit _ _ _ _ _ hnl]
      rw [if_neg (by rintro ⟨ha, -⟩; omega)]
      omega
    constructor
    · intro _ j hj; omega
    · intro hne; exact absurd hval hne
  · have h1 : 1 ≤ l.size := Nat.one_le_iff_ne_zero.mpr hsz
    obtain ⟨hge, hle, hA, hC⟩ := binaryFindLoop_leaf_inv l k hs (l.size + 2) 0
      ((l.size : Int) - 1) le_rfl (by omega) (by omega) (by omega)
      (fun j hj1 hj2 => absurd hj1 (by omega)) (Or.inl rfl)
    simp only [BinaryFindLeaf]
    by_cases hfin : 0 ≤ (binaryFindLoop (fun i => l.KeyAt i) k (l.size + 2) 0
        ((l.size : Int) - 1)).2 ∧
        cmp (l.KeyAt (binaryFindLoop (fun i => l.KeyAt i) k (l.size + 2) 0
          ((l.size : Int) - 1)).2) k = 1
    · rw [if_pos hfin]
      constructor
      · intro _ j hj
        have hgt : k < l.keys (binaryFindLoop (fun i => l.KeyAt i) k (l.size + 2) 0
            ((l.size : Int) - 1)).2.toNat := (cmp_eq_one_iff _ _).mp hfin.2
        have hr0 : (binaryFindLoop (fun i => l.KeyAt i) k (l.size + 2) 0
            ((l.size : Int) - 1)).2 = 0 := by
          rcases hC with h | h
          · exact h
          · exact absurd h (by omega)
        rcases Nat.eq_zero_or_pos j with hj0 | hjpos
        · subst hj0; rw [hr0] at hgt; exact hgt
        · exact hA j (by omega) hj
      · intro hne; exact absurd rfl hne
    · rw [if_neg hfin]
      constructor
      · intro hm1; exact absurd hm1 (by omega)
      · intro _
        have hkr : l.keys (binaryFindLoop (fun i => l.KeyAt i) k (l.size + 2) 0
            ((l.size : Int) - 1)).2.toNat ≤ k := by
          rcases not_and_or.mp hfin with h | h
          · exact absurd hge h
          · exact (cmp_ne_one_iff _ _).mp h
        refine ⟨hge, by omega, hkr, ?_⟩
        intro j hj hkj
        by_contra hz
        exact absurd (hA j (by omega) hj) (by omega)

/-- BinaryFind on an internal page never answers -1 (the -1 case of
the loop result is clamped to 0). -/
theorem BinaryFindInternal_ne_neg_one (node : InternalNode) (k : Int) :
    BinaryFindInternal node k ≠ -1 := by
  simp only [BinaryFindInternal]
  split
  · omega
  · rename_i h
    rcases not_or.mp h with ⟨h1, _⟩
    exact h1

/-- The descent of Begin(key): an iterator outcome points at a leaf of
the store at the greatest slot whose key is ≤ the target, and the
BUSTUB_ENSURE abort happens exactly over some leaf all of whose keys
exceed the target. -/
theorem beginDescend_spec (t : BPlusTree) (k : Int) (hs : treeLeavesSorted t) :
    ∀ fuel pid,
      (∀ p s, beginDescend t k fuel pid = some (BeginOutcome.it p s) →
        ∃ l, t.store p = some (BPTNode.leaf l) ∧ 0 ≤ s ∧ s.toNat < l.size ∧
          l.keys s.toNat ≤ k ∧ ∀ j : Nat, j < l.size → l.keys j ≤ k → (j : Int) ≤ s) ∧
      (beginDescend t k fuel pid = some BeginOutcome.ensureFail →
        ∃ p l, t.store p = some (BPTNode.leaf l) ∧ ∀ j : Nat, j < l.size → k < l.keys j) := by
  intro fuel
  induction fuel with
  | zero =>
    intro pid
    exact ⟨fun p s h => by simp [beginDescend] at h, fun h => by simp [beginDescend] at h⟩
  | succ n ih =>
    intro pid
    constructor
    · intro p s h
      cases hsp : t.store pid with
      | none => simp [beginDescend, hsp] at h
      | some node =>
        cases node with
        | leaf l =>
          simp only [beginDescend, hsp] at h
          by_cases hb : BinaryFindLeaf l k ≠ -1
          · rw [if_pos hb] at h
            have hspec := (BinaryFindLeaf_spec l k (hs pid l hsp)).2 hb
            injection h with h2
            injection h2 with hp hsv
            subst hp
            subst hsv
            exact ⟨l, hsp, hspec.1, hspec.2.1, hspec.2.2.1, hspec.2.2.2⟩
          · rw [if_neg hb] at h; simp at h
        | internal node =>
          simp only [beginDescend, hsp] at h
          rw [if_neg (BinaryFindInternal_ne_neg_one node k)] at h
          exact (ih _).1 p s h
    · intro h
      cases hsp : t.store pid with
      | none => simp [beginDescend, hsp] at h
      | some node =>
        cases node with
        | leaf l =>
          simp only [beginDescend, hsp] at h
          by_cases hb : BinaryFindLeaf l k ≠ -1
          · rw [if_pos hb] at h; simp at h
          · rw [if_neg hb] at h
            exact ⟨pid, l, hsp, (BinaryFindLeaf_spec l k (hs pid l hsp)).1 (not_not.mp hb)⟩
        | internal node =>
          simp only [beginDescend, hsp] at h
          rw [if_neg (BinaryFindInternal_ne_neg_one node k)] at h
          exact (ih _).2 h

/-- C8 (amended): on a tree whose leaves are sorted, Begin(key)
returns End on an empty tree; otherwise an iterator outcome points at
a leaf of the store positioned at the greatest slot whose key is ≤ the
given key (the predecessor — which equals the first key ≥ the given
one only when the key is present), and when every key of the reached
leaf exceeds the given key the call trips BUSTUB_ENSURE instead of
returning End. -/
theorem C8_begin_positions_at_predecessor (t : BPlusTree) (fuel : Nat) (k : Int)
    (hs : treeLeavesSorted t) :
    (∀ p s, beginKey t fuel k = some (BeginOutcome.it p s) →
      (p = -1 ∧ s = -1 ∧ t.root_page_id = INVALID_PAGE_ID) ∨
      (∃ l, t.store p = some (BPTNode.leaf l) ∧ 0 ≤ s ∧ s.toNat < l.size ∧
        l.keys s.toNat ≤ k ∧ ∀ j : Nat, j < l.size → l.keys j ≤ k → (j : Int) ≤ s)) ∧
    (beginKey t fuel k = some BeginOutcome.ensureFail →
      ∃ p l, t.store p = some (BPTNode.leaf l) ∧ ∀ j : Nat, j < l.size → k < l.keys j) := by
  unfold beginKey
  by_cases hroot : t.root_page_id = INVALID_PAGE_ID
  · rw [if_pos hroot]
    constructor
    · intro p s h
      injection h with h2
      injection h2 with hp hsv
      exact Or.inl ⟨hp.symm, hsv.symm, hroot⟩
    · intro h; simp at h
  · rw [if_neg hroot]
    have hd := beginDescend_spec t k hs fuel t.root_page_id
    exact ⟨fun p s h => Or.inr (hd.1 p s h), hd.2⟩

/-- Witness: on the concrete root leaf [1, 3], Begin(2) positions at
page 1 slot 0, the greatest slot with key ≤ 2. -/
theorem C8_begin_positions_witness :
    ∃ l, c8WitTree.store 1 = some (BPTNode.leaf l) ∧ (0 : Int) ≤ 0 ∧
      (0 : Int).toNat < l.size ∧ l.keys (0 : Int).toNat ≤ 2 ∧
      ∀ j : Nat, j < l.size → l.keys j ≤ 2 → (j : Int) ≤ 0 := by
  have hsorted : treeLeavesSorted c8WitTree := by
    intro pid l hl
    by_cases hp : pid = 1
    · subst hp
      simp only [c8WitTree] at hl
      rw [if_pos trivial] at hl
      injection hl with hl2
      injection hl2 with hl3
      subst hl3
      intro i j hij hj
      have hj2 : j < 2 := hj
      rcases j with _ | _ | j
      · omega
      · have hi0 : i = 0 := by omega
        subst hi0
        decide
      · exact absurd hj2 (by omega)
    · have hnone : c8WitTree.store pid = none := by simp [c8WitTree, hp]
      rw [hnone] at hl
      simp at hl
  have h := (C8_begin_positions_at_predecessor c8WitTree 10 2 hsorted).1 1 0 (by decide)
  rcases h with ⟨hp, -, -⟩ | h2
  · exact absurd hp (by decide)
  · exact h2

/-- An upward loop whose body preserves a measure preserves it
overall. -/
theorem forUp_measure {σ : Type} (f : Nat → σ → σ) (meas : σ → Nat)
    (hf : ∀ i s, meas (f i s) = meas s) :
    ∀ c i s, meas (forUp f i c s) = meas s := by
  intro c
  induction c with
  | zero => intro i s; rfl
  | succ n ih => intro i s; simp only [forUp]; rw [ih, hf]

/-- A downward loop whose body preserves a measure preserves it
overall. -/
theorem forDown_measure {σ : Type} (f : Nat → σ → σ) (meas : σ → Nat)
    (hf : ∀ i s, meas (f i s) = meas s) :
    ∀ c i s, meas (forDown f i c s) = meas s := by
  intro c
  induction c with
  | zero => intro i s; rfl
  | succ n ih => intro i s; simp only [forDown]; rw [ih, hf]

/-- C7: counterexample — with leaf_max_size L = 3, after Insert of
1, 2, 3, 4 and Remove of 4 the tree has the internal root at page 3
whose child 1 is the non-root leaf at page 2 holding a single entry:
1 < ⌈3/2⌉ = 2.  Remove rebalances only below GetMinSize =
max(⌊L/2⌋, 1) = 1, so the state is quiescent and violates the claimed
⌈L/2⌉ lower bound. -/
theorem C7_nonroot_leaf_below_ceil :
    (applyOps 20 (emptyTree 3 3) c7Ops).isSome = true ∧
    c7Tree.root_page_id = 3 ∧
    internalSizeAtPage c7Tree 3 = 2 ∧
    internalChildAtPage c7Tree 3 1 = 2 ∧
    leafSizeAtPage c7Tree 2 = 1 ∧
    leafKeyAtPage c7Tree 2 0 = 3 ∧
    c7Tree.leaf_max_size = 3 ∧
    leafMinSize 3 = 1 ∧
    1 < (3 + 1) / 2 := by decide

/-- C7 (amended): the occupancy bounds the code enforces on leaves are
max(⌊L/2⌋, 1) .. L from BPlusTreePage::GetMinSize, not ⌈L/2⌉ .. L:
leafMinSize is that floor bound and falls short of ⌈L/2⌉ exactly for
odd L ≥ 3; an in-place Insert grows a leaf by one; a full-leaf split
leaves both halves between ⌈L/2⌉ and L entries (so Insert alone even
maintains the claimed bound); Remove keeps a shrunk leaf untouched
whenever it still meets the floor bound (the witnessed counterexample
sits exactly in the gap); a borrow moves one entry between siblings,
staying within the floor bounds; and a merge of a leaf one below the
floor bound with a sibling at the bound yields a single leaf within
the floor bounds. -/
theorem C7_leaf_occupancy_floor (L : Nat) (hL : 1 ≤ L) :
    (leafMinSize L = max (L / 2) 1 ∧ (leafMinSize L < (L + 1) / 2 ↔ L % 2 = 1 ∧ 3 ≤ L)) ∧
    (∀ l k v, (leafOptInsert l k v).size = l.size + 1) ∧
    (∀ (l : LeafNode) k v pid lmax, l.max_size = L →
      (leafSplit l k v pid lmax).1.size = (L + 1) / 2 ∧
      (leafSplit l k v pid lmax).2.1.size = (L + 1) - (L + 1) / 2 ∧
      leafMinSize L ≤ (L + 1) / 2 ∧ (L + 1) / 2 ≤ L ∧
      leafMinSize L ≤ (L + 1) - (L + 1) / 2 ∧ (L + 1) - (L + 1) / 2 ≤ L) ∧
    (∀ leaf parent rsib oslot,
      (leafBorrowRight leaf parent rsib oslot).1.size = leaf.size + 1 ∧
      (leafBorrowRight leaf parent rsib oslot).2.2.size = rsib.size - 1) ∧
    (∀ leaf parent lsib oslot,
      (leafBorrowLeft leaf parent lsib oslot).1.size = leaf.size + 1 ∧
      (leafBorrowLeft leaf parent lsib oslot).2.2.size = lsib.size - 1) ∧
    (∀ leaf parent rsib oslot,
      (leafMergeRight leaf parent rsib oslot).1.size = leaf.size + rsib.size) ∧
    (∀ leaf parent lsib oslot,
      (leafMergeLeft leaf parent lsib oslot).1.size = lsib.size + leaf.size) ∧
    (∀ a rs : Nat, a + 1 = leafMinSize L → leafMinSize L ≤ rs → rs ≤ leafMinSize L →
      leafMinSize L ≤ a + rs ∧ a + rs ≤ L) ∧
    (∀ rs : Nat, leafMinSize L < rs → rs ≤ L → leafMinSize L ≤ rs - 1 ∧ rs - 1 ≤ L) ∧
    (∀ t ws lid (leaf0 : LeafNode) key ds, leaf0.max_size = L →
      firstIdx (fun i => decide (cmp key (leaf0.KeyAt (i : Int)) = 0)) 0 leaf0.size = some ds →
      leafMinSize L ≤ leaf0.size - 1 →
      ∃ l2, removeAtLeaf t ws lid leaf0 key =
          some { t with store := storeSet t.store lid (BPTNode.leaf l2) } ∧
        l2.size = leaf0.size - 1) := by
  refine ⟨⟨?_, ?_⟩, ?_, ?_, ?_, ?_, ?_, ?_, ?_, ?_, ?_⟩
  · unfold leafMinSize; split <;> omega
  · unfold leafMinSize; split <;> omega
  · intro l k v
    have hm := forUp_measure (leafInsertStep k) (fun s => s.1.size) ?step l.size 0
      (l, (k, v), false)
    case step =>
      intro i s
      obtain ⟨a, b, c⟩ := s
      simp only [leafInsertStep]
      split <;> rfl
    have h1 : (leafOptInsert l k v).size =
        (forUp (leafInsertStep k) 0 l.size (l, (k, v), false)).1.size + 1 := rfl
    rw [h1, hm]
  · intro l k v pid lmax hmax
    subst hmax
    have hstep : ∀ i s, (leafSplitStep k ((l.max_size + 1) / 2) i s).2.1.size = s.2.1.size := by
      intro i s
      obtain ⟨a, b, c, d⟩ := s
      simp only [leafSplitStep]
      split
      · split
        · rfl
        · split <;> rfl
      · rfl
    have hm := forUp_measure (leafSplitStep k ((l.max_size + 1) / 2))
      (fun s => s.2.1.size) hstep l.max_size 0
      (l, { leafInit lmax with size := (l.max_size + 1) - (l.max_size + 1) / 2 }, (k, v), false)
    have h2 : (leafSplit l k v pid lmax).2.1.size =
        (forUp (leafSplitStep k ((l.max_size + 1) / 2)) 0 l.max_size
          (l, { leafInit lmax with size := (l.max_size + 1) - (l.max_size + 1) / 2 },
            (k, v), false)).2.1.size := rfl
    refine ⟨rfl, ?_, ?_, ?_, ?_, ?_⟩
    · rw [h2, hm]
    · unfold leafMinSize; split <;> omega
    · omega
    · unfold leafMinSize; split <;> omega
    · omega
  · intro leaf parent rsib oslot
    have hm := forUp_measure
      (fun i (r : LeafNode) => r.SetAt ((i : Int) - 1) (r.KeyAt (i : Int)) (r.ValueAt (i : Int)))
      (fun r => r.size) (fun i s => rfl) (rsib.size - 1) 1 rsib
    exact ⟨rfl, by
      have h1 : (leafBorrowRight leaf parent rsib oslot).2.2.size =
          (forUp (fun i (r : LeafNode) => r.SetAt ((i : Int) - 1) (r.KeyAt (i : Int)) (r.ValueAt (i : Int)))
            1 (rsib.size - 1) rsib).size - 1 := rfl
      rw [h1, hm]⟩
  · intro leaf parent lsib oslot
    have hm := forDown_measure
      (fun i (l : LeafNode) => l.SetAt (i : Int) (l.KeyAt ((i : Int) - 1)) (l.ValueAt ((i : Int) - 1)))
      (fun r => r.size) (fun i s => rfl) (leaf.size + 1 - 1) (leaf.size + 1 - 1)
      { leaf with size := leaf.size + 1 }
    refine ⟨?_, rfl⟩
    have h1 : (leafBorrowLeft leaf parent lsib oslot).1.size =
        (forDown (fun i (l : LeafNode) => l.SetAt (i : Int) (l.KeyAt ((i : Int) - 1))
            (l.ValueAt ((i : Int) - 1)))
          (leaf.size + 1 - 1) (leaf.size + 1 - 1) { leaf with size := leaf.size + 1 }).size :=
      rfl
    rw [h1, hm]
  · intro leaf parent rsib oslot
    have hm := forUp_measure
      (fun j (l : LeafNode) => l.SetAt ((leaf.size + j : Nat) : Int) (rsib.KeyAt (j : Int))
        (rsib.ValueAt (j : Int)))
      (fun r => r.size) (fun i s => rfl) rsib.size 0
      { leaf with next_page_id := rsib.next_page_id, size := leaf.size + rsib.size }
    have h1 : (leafMergeRight leaf parent rsib oslot).1.size =
        (forUp (fun j (l : LeafNode) => l.SetAt ((leaf.size + j : Nat) : Int) (rsib.KeyAt (j : Int))
            (rsib.ValueAt (j : Int))) 0 rsib.size
          { leaf with next_page_id := rsib.next_page_id,
                      size := leaf.size + rsib.size }).size := rfl
    rw [h1, hm]
  · intro leaf parent lsib oslot
    have hm := forUp_measure
      (fun j (l2 : LeafNode) => l2.SetAt ((lsib.size + j : Nat) : Int) (leaf.KeyAt (j : Int))
        (leaf.ValueAt (j : Int)))
      (fun r => r.size) (fun i s => rfl) leaf.size 0
      { lsib with next_page_id := leaf.next_page_id, size := lsib.size + leaf.size }
    have h1 : (leafMergeLeft leaf parent lsib oslot).1.size =
        (forUp (fun j (l2 : LeafNode) => l2.SetAt ((lsib.size + j : Nat) : Int) (leaf.KeyAt (j : Int))
            (leaf.ValueAt (j : Int))) 0 leaf.size
          { lsib with next_page_id := leaf.next_page_id,
                      size := lsib.size + leaf.size }).size := rfl
    rw [h1, hm]
  · intro a rs h1 h2 h3
    have he : leafMinSize L = max (L / 2) 1 := by unfold leafMinSize; split <;> omega
    rw [he] at h1 h2 h3
    rw [he]
    omega
  · intro rs h1 h2
    have he : leafMinSize L = max (L / 2) 1 := by unfold leafMinSize; split <;> omega
    rw [he] at h1
    rw [he]
    omega
  · intro t ws lid leaf0 key ds hmax hfind hmin
    have hszm := forUp_measure
      (fun i (l : LeafNode) => l.SetAt ((i : Int) - 1) (l.KeyAt (i : Int)) (l.ValueAt (i : Int)))
      (fun l => l.size) (fun i s => rfl) (leaf0.size - (ds + 1)) (ds + 1) leaf0
    have hmxm := forUp_measure
      (fun i (l : LeafNode) => l.SetAt ((i : Int) - 1) (l.KeyAt (i : Int)) (l.ValueAt (i : Int)))
      (fun l => l.max_size) (fun i s => rfl) (leaf0.size - (ds + 1)) (ds + 1) leaf0
    simp only [removeAtLeaf, hfind]
    have hc1 : leafMinSize
        ({ (forUp (fun i (l : LeafNode) => l.SetAt ((i : Int) - 1) (l.KeyAt (i : Int)) (l.ValueAt (i : Int)))
            (ds + 1) (leaf0.size - (ds + 1)) leaf0) with
          size := (forUp (fun i (l : LeafNode) => l.SetAt ((i : Int) - 1) (l.KeyAt (i : Int))
            (l.ValueAt (i : Int))) (ds + 1) (leaf0.size - (ds + 1)) leaf0).size - 1 } :
          LeafNode).max_size ≤
        ({ (forUp (fun i (l : LeafNode) => l.SetAt ((i : Int) - 1) (l.KeyAt (i : Int)) (l.ValueAt (i : Int)))
            (ds + 1) (leaf0.size - (ds + 1)) leaf0) with
          size := (forUp (fun i (l : LeafNode) => l.SetAt ((i : Int) - 1) (l.KeyAt (i : Int))
            (l.ValueAt (i : Int))) (ds + 1) (leaf0.size - (ds + 1)) leaf0).size - 1 } :
          LeafNode).size := by
      show leafMinSize (forUp _ (ds + 1) (leaf0.size - (ds + 1)) leaf0).max_size ≤
        (forUp _ (ds + 1) (leaf0.size - (ds + 1)) leaf0).size - 1
      rw [hszm, hmxm, hmax]
      exact hmin
    rw [if_pos (Or.inl hc1)]
    have hc2 : ¬ ({ (forUp (fun i (l : LeafNode) => l.SetAt ((i : Int) - 1) (l.KeyAt (i : Int))
          (l.ValueAt (i : Int))) (ds + 1) (leaf0.size - (ds + 1)) leaf0) with
        size := (forUp (fun i (l : LeafNode) => l.SetAt ((i : Int) - 1) (l.KeyAt (i : Int))
          (l.ValueAt (i : Int))) (ds + 1) (leaf0.size - (ds + 1)) leaf0).size - 1 } :
        LeafNode).size = 0 := by
      show ¬ (forUp _ (ds + 1) (leaf0.size - (ds + 1)) leaf0).size - 1 = 0
      rw [hszm]
      have : 1 ≤ leafMinSize L := by unfold leafMinSize; split <;> omega
      omega
    rw [if_neg hc2]
    refine ⟨_, rfl, ?_⟩
    show (forUp _ (ds + 1) (leaf0.size - (ds + 1)) leaf0).size - 1 = leaf0.size - 1
    rw [hszm]

/-- Witness: at L = 3 the floor bound is 1 (below ⌈3/2⌉ = 2), and an
in-place insert into the concrete leaf [1, 3] grows it to 3 entries. -/
theorem C7_leaf_occupancy_witness :
    (1 : Nat) ≤ 3 ∧ leafMinSize 3 = max (3 / 2) 1 ∧ (leafMinSize 3 < (3 + 1) / 2) ∧
    (leafOptInsert c8WitLeaf 2 (2, 2)).size = c8WitLeaf.size + 1 := by
  have h := C7_leaf_occupancy_floor 3 (by decide)
  exact ⟨by decide, h.1.1, (h.1.2).mpr (by decide), h.2.1 c8WitLeaf 2 (2, 2)⟩

end BusTub
